import Mathlib

/-!
Verification development for the `pi_slotmap_tree` hierarchical-structure
engine (`src/lib.rs`).  Handles (`K`) are modelled as `Nat` with `0` as the
designated null value; the three record stores (`Up`, `Down`, `Layer`) and
the root-registration hook are modelled as a functional `Storage`.  The
engine operations are shallowly embedded as fuel-indexed interpreters on
`Storage`; a Rust `panic!` / `.unwrap()` failure is `Er.fatal` and fuel
exhaustion (modelling non-termination of the source's unbounded loops) is
`Er.fuel`.  An aborted computation carries the storage at the moment of
abort, matching the observable effect of a Rust unwind past `&mut` state.
`usize` arithmetic wraps at `2 ^ 64` (release-build semantics).
-/

namespace PiTree

/-- Handles: `Nat`, with `0` playing the role of `K::null()`. -/
abbrev K := Nat

/-- The `usize` modulus. -/
def W : Nat := 2 ^ 64

/-- `(a as isize + d) as usize`: wrapping add of a signed delta to a `usize`. -/
def wadd (a : Nat) (d : Int) : Nat := (((a : Int) + d) % (W : Int)).toNat

/-- Wrapping `usize` subtraction `a - b`. -/
def wsub (a b : Nat) : Nat := (((a : Int) - (b : Int)) % (W : Int)).toNat

/-- Wrapping `usize` addition `a + b`. -/
def waddn (a b : Nat) : Nat := (a + b) % W

/-- `Up` record: parent plus sibling links. -/
structure Up where
  parent : K
  prev : K
  next : K
deriving DecidableEq, Repr

/-- `Down` record: child-list summary plus aggregate descendant count. -/
structure Down where
  head : K
  tail : K
  len : Nat
  count : Nat
deriving DecidableEq, Repr

/-- `Layer` record: depth (`none` = null `usize`) and subtree root. -/
structure Layer where
  layer : Option Nat
  root : K
deriving DecidableEq, Repr

/-- The storage contract: the three record maps plus the root-registration
hook (`set_root` / `remove_root`), observed as a `Bool`-valued map. -/
structure Storage where
  up : K → Option Up
  down : K → Option Down
  layer : K → Option Layer
  roots : K → Bool

def setUp (s : Storage) (k : K) (u : Up) : Storage :=
  { s with up := fun j => if j = k then some u else s.up j }

def removeUp (s : Storage) (k : K) : Storage :=
  { s with up := fun j => if j = k then none else s.up j }

def setDown (s : Storage) (k : K) (d : Down) : Storage :=
  { s with down := fun j => if j = k then some d else s.down j }

def setLayer (s : Storage) (k : K) (l : Layer) : Storage :=
  { s with layer := fun j => if j = k then some l else s.layer j }

def removeLayer (s : Storage) (k : K) : Storage :=
  { s with layer := fun j => if j = k then none else s.layer j }

def setRoot (s : Storage) (k : K) : Storage :=
  { s with roots := fun j => if j = k then true else s.roots j }

def removeRoot (s : Storage) (k : K) : Storage :=
  { s with roots := fun j => if j = k then false else s.roots j }

/-- The empty storage. -/
def emptyS : Storage := ⟨fun _ => none, fun _ => none, fun _ => none, fun _ => false⟩

/-- `Tree::default_children`: the `Down {null, null, 0, 1}` substituted when a
parent has no materialized `Down` during `insert_child`'s read. -/
def defaultChildren : Down := ⟨0, 0, 0, 1⟩

/-- How an operation aborted: `fatal` is a Rust `panic!`/failed `.unwrap()`,
`fuel` is exhaustion of the interpreter fuel (the source loop/recursion did
not terminate within the allotted steps). -/
inductive Er where
  | fatal
  | fuel
deriving DecidableEq, Repr

/-- Result of a mutating operation: the final storage, or the abort kind
together with the storage at the moment of abort. -/
abbrev Res := Except (Er × Storage) Storage

def okStore : Res → Option Storage
  | .ok s => some s
  | .error _ => none

def errKind : Res → Option Er
  | .error (e, _) => some e
  | .ok _ => none

def errStore : Res → Option Storage
  | .error (_, s) => some s
  | .ok _ => none

/-- Sequencing on `Res` (explicit, to keep proofs by `match` inversion). -/
def andThen (r : Res) (f : Storage → Res) : Res :=
  match r with
  | .ok s => f s
  | .error e => .error e

/-- The unchecked read `Storage::up` (`.unwrap()`: fatal when absent). -/
def withUp (s : Storage) (k : K) (f : Up → Res) : Res :=
  match s.up k with
  | some u => f u
  | none => .error (.fatal, s)

/-- The unchecked read `Storage::down` (`.unwrap()`: fatal when absent). -/
def withDown (s : Storage) (k : K) (f : Down → Res) : Res :=
  match s.down k with
  | some d => f d
  | none => .error (.fatal, s)

inductive InsertType where
  | Back
  | Front
deriving DecidableEq, Repr

/-- The source's `get_up(k).map_or(null, |u| u.parent)`. -/
def parentOf (s : Storage) (k : K) : K :=
  match s.up k with
  | none => 0
  | some u => u.parent

/-- The source's `get_down(k).map_or(null, |d| d.head)`. -/
def headOf (s : Storage) (k : K) : K :=
  match s.down k with
  | none => 0
  | some d => d.head

/-- The source's `get_down(k).map_or(1, |d| d.count + 1)`: the size of the
subtree handled when detaching or re-attaching `k`. -/
def subCount (s : Storage) (k : K) : Nat :=
  match s.down k with
  | none => 1
  | some dn => waddn dn.count 1

/-- `Tree::modify_count`: walk parents upward from `id`, adding the signed
delta `c` to each `Down.count`, stopping at null or at a node with no `Up`. -/
def modifyCount : Nat → Storage → K → Int → Res
  | fuel, s, id, c =>
    if id = 0 then .ok s
    else
      match fuel with
      | 0 => .error (.fuel, s)
      | fuel + 1 =>
        match s.down id with
        | none => .error (.fatal, s)
        | some d =>
          let s' := setDown s id { d with count := wadd d.count c }
          match s'.up id with
          | some u => modifyCount fuel s' u.parent c
          | none => .ok s'

/-- `Tree::remove_node`: unlink `id` from its sibling chain, fix the parent's
`Down`, propagate `-count` upward, then drop `id`'s `Layer` and `Up`. -/
def removeNode (fuel : Nat) (s0 : Storage) (id parent : K) (count : Nat)
    (prev next : K) : Res :=
  andThen (if prev ≠ 0 then
      withUp s0 prev fun u => .ok (setUp s0 prev { u with next := next })
    else .ok s0) fun s1 =>
  andThen (if next ≠ 0 then
      withUp s1 next fun u => .ok (setUp s1 next { u with prev := prev })
    else .ok s1) fun s2 =>
  withDown s2 parent fun d =>
    let d1 : Down :=
      { head := if prev = 0 then next else d.head
        tail := if next = 0 then prev else d.tail
        len := wsub d.len 1
        count := wsub d.count count }
    let s3 := setDown s2 parent d1
    let pp := parentOf s3 parent
    andThen (modifyCount fuel s3 pp (-(count : Int))) fun s4 =>
    .ok (removeUp (removeLayer s4 id) id)

/-- `Tree::remove_tree`: walk the sibling chain from `id` removing each
`Layer`; recurse into children when a `Down` exists, otherwise stop the walk
(the source's early `break`). -/
def removeTree : Nat → Storage → K → Res
  | 0, s, id => if id = 0 then .ok s else .error (.fuel, s)
  | fuel + 1, s, id =>
    if id = 0 then .ok s
    else
      let s1 := removeLayer s id
      match s1.down id with
      | none => .ok s1
      | some d =>
        andThen (removeTree fuel s1 d.head) fun s2 =>
        withUp s2 id fun u => removeTree fuel s2 u.next

/-- The first phase of `Tree::remove` (its opening `if let`): when `id` is
attached, deregister it as a root at depth 1 and strip the layers of its
children's chains via `remove_tree`. -/
def removeStrip (fuel : Nat) (s : Storage) (id : K) : Res :=
  match s.layer id with
  | some l =>
    match l.layer with
    | some d =>
      let sa := if d = 1 then removeRoot s id else s
      removeTree fuel sa (headOf sa id)
    | none => .ok s
  | none => .ok s

/-- The second phase of `Tree::remove` (its second `if let`): detach `id`
from its parent when it has one. -/
def removePhase2 (fuel : Nat) (s1 : Storage) (id : K) : Res :=
  match s1.up id with
  | some u =>
    if u.parent ≠ 0 then
      let count := subCount s1 id
      removeNode fuel s1 id u.parent count u.prev u.next
    else .ok s1
  | none => .ok s1

/-- `Tree::remove`: strip layers of the subtree when `id` is attached
(deregistering a depth-1 root), then detach `id` when it has a parent. -/
def remove (fuel : Nat) (s : Storage) (id : K) : Res :=
  andThen (removeStrip fuel s id) fun s1 => removePhase2 fuel s1 id

/-- `Tree::insert_tree`: stamp `Layer {depth, root}` on every node of the
sibling chain from `id`, recursing into children at `depth + 1`.  The
source's `Layer` argument carries a non-null depth by documented
precondition, so the depth is a plain `Nat` here. -/
def insertTree : Nat → Storage → K → Nat → K → Res
  | 0, s, id, _, _ => if id = 0 then .ok s else .error (.fuel, s)
  | fuel + 1, s, id, depth, root =>
    if id = 0 then .ok s
    else
      let s1 := setLayer s id ⟨some depth, root⟩
      let head := headOf s1 id
      let id2 := match s1.up id with | some u => u.next | none => 0
      andThen (insertTree fuel s1 head (waddn depth 1) root) fun s2 =>
      insertTree fuel s2 id2 depth root

/-- The fresh-attach arm of `insert_node`'s opening match: stamp the layer
when non-null, write a fresh `Up`, and read `id`'s own `Down` for the count
to propagate (`(c.count + 1, c.head, null)`, or `(1, null, null)`). -/
def insertNodeFresh (s0 : Storage) (id parent : K) (ly : Layer)
    (prev next : K) : (Nat × K × K) × Storage :=
  let sa := if ly.layer ≠ none then setLayer s0 id ly else s0
  let sb := setUp sa id ⟨parent, prev, next⟩
  match sb.down id with
  | none => ((1, 0, 0), sb)
  | some c => ((waddn c.count 1, c.head, 0), sb)

/-- The `get_up_mut(id)` match opening `insert_node`: `none` encodes the
fatal reposition-under-a-different-parent panic. -/
def insertNodeStep1 (s0 : Storage) (id parent : K) (ly : Layer)
    (prev next : K) : Option ((Nat × K × K) × Storage) :=
  match s0.up id with
  | some n =>
    if n.parent ≠ 0 then
      if n.parent ≠ parent then none
      else some ((0, n.prev, n.next),
                 setUp s0 id { n with prev := prev, next := next })
    else some (insertNodeFresh s0 id parent ly prev next)
  | none => some (insertNodeFresh s0 id parent ly prev next)

/-- The tail of `insert_node` after its opening match: fix the new
neighbours, do the same-parent fix-ups (the reposition case, `count = 0`),
update the parent's `Down`, propagate the count, and restamp the subtree on
a layered fresh attach. -/
def insertNodeRest (fuel : Nat) (id parent : K) (ly : Layer) (prev next : K)
    (count : Nat) (fixPrev fixNext : K) (s1 : Storage) : Res :=
  andThen (if prev ≠ 0 then
      withUp s1 prev fun u => .ok (setUp s1 prev { u with next := id })
    else .ok s1) fun s2 =>
  andThen (if next ≠ 0 then
      withUp s2 next fun u => .ok (setUp s2 next { u with prev := id })
    else .ok s2) fun s3 =>
  andThen (if count = 0 then
      andThen (if fixPrev ≠ 0 then
          withUp s3 fixPrev fun u => .ok (setUp s3 fixPrev { u with next := fixNext })
        else .ok s3) fun sa =>
      andThen (if fixNext ≠ 0 then
          withUp sa fixNext fun u => .ok (setUp sa fixNext { u with prev := fixPrev })
        else .ok sa) fun sb =>
      if prev = 0 ∨ next = 0 ∨ fixPrev = 0 ∨ fixNext = 0 then
        -- the source computes fixed-up head/tail into a local clone of
        -- `down(parent)` here and never writes it back; only the unchecked
        -- read (a potential panic) is observable
        withDown sb parent fun _ => .ok sb
      else .ok sb
    else .ok s3) fun s4 =>
  let pd := (s4.down parent).getD (⟨0, 0, 0, 0⟩ : Down)
  let pd1 : Down :=
    { pd with head := if prev = 0 then id else pd.head
              tail := if next = 0 then id else pd.tail }
  let pd2 : Down := { pd1 with len := waddn pd1.len 1, count := waddn pd1.count count }
  let s5 := setDown s4 parent pd2
  let pp := parentOf s5 parent
  andThen (modifyCount fuel s5 pp (count : Int)) fun s6 =>
  match ly.layer with
  | some d =>
    if count > 0 then
      andThen (insertTree fuel s6 fixPrev (waddn d 1) ly.root) fun s7 =>
      .ok (setLayer s7 id ly)
    else .ok s6
  | none => .ok s6

/-- `Tree::insert_node`. -/
def insertNode (fuel : Nat) (s0 : Storage) (id parent : K) (ly : Layer)
    (prev next : K) : Res :=
  match insertNodeStep1 s0 id parent ly prev next with
  | none => .error (.fatal, s0)
  | some ((count, fixPrev, fixNext), s1) =>
    insertNodeRest fuel id parent ly prev next count fixPrev fixNext s1

/-- The mutation body of `Tree::insert_as_root` (the `_ =>` arm). -/
def insertAsRootCore (fuel : Nat) (s : Storage) (id : K) : Res :=
  let s2 := setLayer (setRoot s id) id ⟨some 1, id⟩
  let hs : K × Storage :=
    match s2.down id with
    | some d => (d.head, s2)
    | none => ((0 : K), setDown s2 id ⟨0, 0, 0, 0⟩)
  andThen (insertTree fuel hs.2 hs.1 2 id) fun s4 =>
  .ok (setLayer s4 id ⟨some 1, id⟩)

/-- `Tree::insert_as_root`: reported failure (no mutation) when `id` already
has a non-null parent, otherwise register and stamp the root. -/
def insertAsRoot (fuel : Nat) (s : Storage) (id : K) : Res :=
  match s.up id with
  | some u => if u.parent ≠ 0 then .ok s else insertAsRootCore fuel s id
  | none => insertAsRootCore fuel s id

/-- Forward walk of `insert_child`'s ordinal search (`order` steps from the
head): `prev = next_old`, `next = up(next_old).next`. -/
def fwdSearch (s : Storage) : Nat → K → K → Except Er (K × K)
  | 0, prev, next => .ok (prev, next)
  | n + 1, prev, next =>
    if next = 0 then .ok (prev, next)
    else
      match s.up next with
      | none => .error .fatal
      | some u => fwdSearch s n next u.next

/-- Backward walk of `insert_child`'s ordinal search (`len - order` steps
from the tail): `next = prev_old`, `prev = up(prev_old).prev`. -/
def backSearch (s : Storage) : Nat → K → K → Except Er (K × K)
  | 0, prev, next => .ok (prev, next)
  | n + 1, prev, next =>
    if prev = 0 then .ok (prev, next)
    else
      match s.up prev with
      | none => .error .fatal
      | some u => backSearch s n u.prev prev

/-- The `(prev, next)` splice-slot computation of `Tree::insert_child`:
append at the tail when `order ≥ len`, otherwise search from the nearer end
of the child list. -/
def splicePos (s : Storage) (pd : Down) (order : Nat) : Except Er (K × K) :=
  if order ≥ pd.len then .ok (pd.tail, 0)
  else if order + order ≥ pd.len then backSearch s (pd.len - order) pd.tail 0
  else fwdSearch s order 0 pd.head

/-- `Tree::insert_child` (`dbg` is `cfg!(debug_assertions)`). -/
def insertChild (dbg : Bool) (fuel : Nat) (s : Storage) (id parent : K)
    (order : Nat) : Res :=
  if dbg ∧ id = parent then .error (.fatal, s)
  else if parent ≠ 0 then
    let pd := (s.down parent).getD defaultChildren
    let ly : Layer :=
      match s.layer parent with
      | none => ⟨none, 0⟩
      | some l => ⟨l.layer.map (fun d => waddn d 1), l.root⟩
    match splicePos s pd order with
    | .error e => .error (e, s)
    | .ok (prev, next) => insertNode fuel s id parent ly prev next
  else insertAsRoot fuel s id

/-- `Tree::insert_brother` (`dbg` is `cfg!(debug_assertions)`). -/
def insertBrother (dbg : Bool) (fuel : Nat) (s : Storage) (id brother : K)
    (ins : InsertType) : Res :=
  match s.up brother with
  | none => .error (.fatal, s)
  | some u =>
    let ly := match s.layer brother with | none => (⟨none, 0⟩ : Layer) | some l => l
    let pn : K × K × K :=
      match ins with
      | .Front => (u.parent, u.prev, brother)
      | .Back => (u.parent, brother, u.next)
    if dbg ∧ id = pn.1 then .error (.fatal, s)
    else if pn.1 ≠ 0 then insertNode fuel s id pn.1 ly pn.2.1 pn.2.2
    else insertAsRoot fuel s id

/-- One step of `ChildrenIterator::next`: the yielded handle and the new
head (`up(head).next`, or null when no `Up` record exists). -/
def childStep (s : Storage) (head : K) : Option (K × K) :=
  if head = 0 then none
  else some (head, match s.up head with | some u => u.next | none => 0)

/-- The (fuel-bounded) list of handles yielded by `ChildrenIterator`. -/
def childList (s : Storage) : Nat → K → List K
  | 0, _ => []
  | n + 1, h =>
    match childStep s h with
    | none => []
    | some (r, h2) => r :: childList s n h2

/-- A public operation of the engine. -/
inductive Op where
  | child (id parent : K) (order : Nat)
  | brother (id bro : K) (ins : InsertType)
  | rem (id : K)

def runOp (dbg : Bool) (fuel : Nat) (s : Storage) : Op → Res
  | .child id parent order => insertChild dbg fuel s id parent order
  | .brother id b ins => insertBrother dbg fuel s id b ins
  | .rem id => remove fuel s id

def runOps (dbg : Bool) (fuel : Nat) : Storage → List Op → Res
  | s, [] => .ok s
  | s, op :: rest => andThen (runOp dbg fuel s op) fun s' => runOps dbg fuel s' rest

/-! ## Ancestor chains -/

/-- The parent successor used by the upward walks: `up(k).parent`, with both
a missing `Up` and the null handle treated as the end of the chain. -/
def nextP (s : Storage) (k : K) : K :=
  if k = 0 then 0
  else
    match s.up k with
    | none => 0
    | some u => u.parent

/-- The chain of nodes visited when walking parents upward from `k`
(inclusive), cut off at the given fuel. -/
def upChain (s : Storage) : Nat → K → List K
  | 0, _ => []
  | f + 1, k => if k = 0 then [] else k :: upChain s f (nextP s k)

/-- `i`-fold iteration of the parent successor.  The upward walk from `k`
terminates within `f` steps exactly when `iter s f k = 0` (the null handle
is absorbing and a missing `Up` steps to null). -/
def iter (s : Storage) : Nat → K → K
  | 0, k => k
  | i + 1, k => iter s i (nextP s k)

/-- Number of proper descendants of `p` among `nodes`: the handles whose
upward parent chain passes through `p`. -/
def descCount (s : Storage) (nodes : List K) (L : Nat) (p : K) : Nat :=
  nodes.countP (fun n => decide (p ∈ upChain s L (nextP s n)))

/-- The count invariant of claim C5 exactly as stated (count = `off` +
number of proper descendants, with `off = 1` for the claim's "1 for the
node itself"), checked over a finite universe `nodes` of handles. -/
def countInv (s : Storage) (nodes : List K) (L : Nat) (off : Nat) : Bool :=
  nodes.all fun p =>
    match s.down p with
    | none => true
    | some d => d.count == off + descCount s nodes L p

/-- "`id` has no parent": no `Up` record, or a stored null parent. -/
def noParentB (s : Storage) (id : K) : Bool :=
  match s.up id with
  | none => true
  | some u => u.parent == 0

/-- "`id` is not attached": no `Layer` record, or a null stored depth. -/
def unattachedB (s : Storage) (id : K) : Bool :=
  match s.layer id with
  | none => true
  | some l => l.layer == none

/-! ## Concrete scenario states

Each is the storage produced by a short sequence of public operations from
the empty storage, written out literally (the build sequence is given in
the doc comment). -/

/-- Root `1`; child `2` of `1`; children `3`, `4` of `2`, in that order:
the result of `insert_child(1,null,MAX); insert_child(2,1,MAX);
insert_child(3,2,MAX); insert_child(4,2,MAX)` from empty storage. -/
def s1234 : Storage :=
  { up := fun k =>
      if k = 2 then some ⟨1, 0, 0⟩
      else if k = 3 then some ⟨2, 0, 4⟩
      else if k = 4 then some ⟨2, 3, 0⟩
      else none
    down := fun k =>
      if k = 1 then some ⟨2, 2, 1, 3⟩
      else if k = 2 then some ⟨3, 4, 2, 2⟩
      else none
    layer := fun k =>
      if k = 1 then some ⟨some 1, 1⟩
      else if k = 2 then some ⟨some 2, 1⟩
      else if k = 3 then some ⟨some 3, 1⟩
      else if k = 4 then some ⟨some 3, 1⟩
      else none
    roots := fun k => k == 1 }

/-- Root `1` with children `2`, `3` in that order: the result of
`insert_child(1,null,MAX); insert_child(2,1,MAX); insert_child(3,1,MAX)`
from empty storage. -/
def s123 : Storage :=
  { up := fun k =>
      if k = 2 then some ⟨1, 0, 3⟩
      else if k = 3 then some ⟨1, 2, 0⟩
      else none
    down := fun k => if k = 1 then some ⟨2, 3, 2, 2⟩ else none
    layer := fun k =>
      if k = 1 then some ⟨some 1, 1⟩
      else if k = 2 then some ⟨some 2, 1⟩
      else if k = 3 then some ⟨some 2, 1⟩
      else none
    roots := fun k => k == 1 }

/-- Root `1` with single child `2`: the result of
`insert_child(1,null,MAX); insert_child(2,1,MAX)` from empty storage. -/
def s12 : Storage :=
  { up := fun k => if k = 2 then some ⟨1, 0, 0⟩ else none
    down := fun k => if k = 1 then some ⟨2, 2, 1, 1⟩ else none
    layer := fun k =>
      if k = 1 then some ⟨some 1, 1⟩
      else if k = 2 then some ⟨some 2, 1⟩
      else none
    roots := fun k => k == 1 }

/-- Reachability by iterating the parent successor (no step bound). -/
def Reach (s : Storage) (k x : K) : Prop := ∃ i, iter s i k = x

/-- Count-correctness: every materialized `Down.count` equals the number of
proper descendants among `nodes` (chains measured with fuel `L`). -/
def countOK (s : Storage) (nodes : List K) (L : Nat) : Prop :=
  ∀ p d, s.down p = some d → d.count = descCount s nodes L p

/-- Well-formedness of a storage over a finite universe `nodes` of live
handles, with chain fuel `L`: the universe is duplicate-free, does not
contain the null handle, fits the `usize` range, and supports every stored
record; every stored non-null parent has a materialized `Down`; every
upward walk terminates; and the stored counts are correct. -/
structure WF (s : Storage) (nodes : List K) (L : Nat) : Prop where
  nodup : nodes.Nodup
  zero_not_mem : (0 : K) ∉ nodes
  lenW : 2 * nodes.length + 2 < W
  lenL : 2 * nodes.length + 2 ≤ L
  support_up : ∀ k, s.up k ≠ none → k ∈ nodes
  support_down : ∀ k, s.down k ≠ none → k ∈ nodes
  parent_down : ∀ k u, s.up k = some u → u.parent ≠ 0 → s.down u.parent ≠ none
  chains_end : ∀ n ∈ nodes, iter s L n = 0
  counts : countOK s nodes L

/-- The handles an operation needs inside the universe. -/
def opValid (op : Op) (nodes : List K) : Prop :=
  match op with
  | .child id parent _ => id ∈ nodes ∧ (parent = 0 ∨ parent ∈ nodes)
  | .brother id _ _ => id ∈ nodes
  | .rem _ => True

/-- `cs` is exactly the chain reached from handle `h` by following
`Up.next` (the parent's child list read forward). -/
def fwdLinkedB (s : Storage) : K → List K → Bool
  | h, [] => h == 0
  | h, c :: t =>
    h == c && c != 0 &&
      (match s.up c with
       | none => false
       | some u => fwdLinkedB s u.next t)

/-- `rs` is exactly the chain reached from handle `t` by following
`Up.prev` (the parent's child list read backward). -/
def backLinkedB (s : Storage) : K → List K → Bool
  | t, [] => t == 0
  | t, c :: r =>
    t == c && c != 0 &&
      (match s.up c with
       | none => false
       | some u => backLinkedB s u.prev r)

/-- The `prev` handle of the claimed splice slot: the `(order-1)`-th child,
null when `order = 0` (modelled from the claim's wording). -/
def specSplicePrev (cs : List K) (order : Nat) : K :=
  if order = 0 then 0 else cs.getD (order - 1) 0

/-- The `next` handle of the claimed splice slot: the `order`-th child
(modelled from the claim's wording). -/
def specSpliceNext (cs : List K) (order : Nat) : K :=
  cs.getD order 0

/-! ## Small lemmas about the storage primitives -/

@[simp] theorem setUp_down (s : Storage) (k : K) (u : Up) : (setUp s k u).down = s.down := rfl

@[simp] theorem setUp_layer (s : Storage) (k : K) (u : Up) : (setUp s k u).layer = s.layer := rfl

@[simp] theorem setUp_roots (s : Storage) (k : K) (u : Up) : (setUp s k u).roots = s.roots := rfl

@[simp] theorem removeUp_down (s : Storage) (k : K) : (removeUp s k).down = s.down := rfl

@[simp] theorem removeUp_layer (s : Storage) (k : K) : (removeUp s k).layer = s.layer := rfl

@[simp] theorem removeUp_roots (s : Storage) (k : K) : (removeUp s k).roots = s.roots := rfl

@[simp] theorem setDown_up (s : Storage) (k : K) (d : Down) : (setDown s k d).up = s.up := rfl

@[simp] theorem setDown_layer (s : Storage) (k : K) (d : Down) : (setDown s k d).layer = s.layer := rfl

@[simp] theorem setDown_roots (s : Storage) (k : K) (d : Down) : (setDown s k d).roots = s.roots := rfl

@[simp] theorem setLayer_up (s : Storage) (k : K) (l : Layer) : (setLayer s k l).up = s.up := rfl

@[simp] theorem setLayer_down (s : Storage) (k : K) (l : Layer) : (setLayer s k l).down = s.down := rfl

@[simp] theorem setLayer_roots (s : Storage) (k : K) (l : Layer) : (setLayer s k l).roots = s.roots := rfl

@[simp] theorem removeLayer_up (s : Storage) (k : K) : (removeLayer s k).up = s.up := rfl

@[simp] theorem removeLayer_down (s : Storage) (k : K) : (removeLayer s k).down = s.down := rfl

@[simp] theorem removeLayer_roots (s : Storage) (k : K) : (removeLayer s k).roots = s.roots := rfl

@[simp] theorem setRoot_up (s : Storage) (k : K) : (setRoot s k).up = s.up := rfl

@[simp] theorem setRoot_down (s : Storage) (k : K) : (setRoot s k).down = s.down := rfl

@[simp] theorem setRoot_layer (s : Storage) (k : K) : (setRoot s k).layer = s.layer := rfl

@[simp] theorem removeRoot_up (s : Storage) (k : K) : (removeRoot s k).up = s.up := rfl

@[simp] theorem removeRoot_down (s : Storage) (k : K) : (removeRoot s k).down = s.down := rfl

@[simp] theorem removeRoot_layer (s : Storage) (k : K) : (removeRoot s k).layer = s.layer := rfl

@[simp] theorem setUp_up (s : Storage) (k : K) (u : Up) (j : K) :
    (setUp s k u).up j = if j = k then some u else s.up j := rfl

@[simp] theorem removeUp_up (s : Storage) (k : K) (j : K) :
    (removeUp s k).up j = if j = k then none else s.up j := rfl

@[simp] theorem setDown_down (s : Storage) (k : K) (d : Down) (j : K) :
    (setDown s k d).down j = if j = k then some d else s.down j := rfl

@[simp] theorem setLayer_layer (s : Storage) (k : K) (l : Layer) (j : K) :
    (setLayer s k l).layer j = if j = k then some l else s.layer j := rfl

@[simp] theorem removeLayer_layer (s : Storage) (k : K) (j : K) :
    (removeLayer s k).layer j = if j = k then none else s.layer j := rfl

/-- The storage after `remove(2)` on `s1234` (detaching `2`'s subtree). -/
def c7s1 : Storage := (okStore (remove 30 s1234 2)).getD emptyS

/-- The storage after re-attaching `2` under `1` at ordinal `0` in `c7s1`. -/
def c7s2 : Storage := (okStore (insertChild true 30 c7s1 2 1 0)).getD emptyS

/-- The storage after the completed operation `remove(2)` on `s12`
(the C5 witness scenario). -/
def c5s : Storage := (okStore (runOp true 10 s12 (.rem 2))).getD emptyS

/-! ## Lemmas about the parent successor, its iterates and chains -/

@[simp] theorem nextP_zero (s : Storage) : nextP s 0 = 0 := by simp [nextP]

theorem nextP_some {s : Storage} {k : K} {u : Up} (hk : k ≠ 0)
    (hu : s.up k = some u) : nextP s k = u.parent := by
  simp [nextP, hk, hu]

theorem nextP_none {s : Storage} {k : K} (hu : s.up k = none) :
    nextP s k = 0 := by
  unfold nextP
  split
  · rfl
  · rw [hu]

@[simp] theorem iter_zero_fuel (s : Storage) (k : K) : iter s 0 k = k := rfl

theorem iter_succ (s : Storage) (i : Nat) (k : K) :
    iter s (i + 1) k = iter s i (nextP s k) := rfl

@[simp] theorem iter_null (s : Storage) : ∀ i, iter s i 0 = 0
  | 0 => rfl
  | i + 1 => by rw [iter_succ, nextP_zero, iter_null s i]

theorem iter_add (s : Storage) (a b : Nat) (k : K) :
    iter s (a + b) k = iter s b (iter s a k) := by
  induction a generalizing k with
  | zero => simp
  | succ a ih =>
    have h1 : a + 1 + b = (a + b) + 1 := by omega
    rw [h1, iter_succ, iter_succ, ih]

/-- A nonzero periodic point of the parent successor never reaches null. -/
theorem eq_zero_of_periodic {s : Storage} {p : Nat} {x : K} (hp : 1 ≤ p)
    (hper : iter s p x = x) : ∀ n, iter s n x = 0 → x = 0 := by
  intro n
  induction n using Nat.strong_induction_on with
  | _ n ih =>
    intro h0
    rcases Nat.lt_or_ge n p with hnp | hpn
    · have hsplit : iter s p x = iter s (p - n) (iter s n x) := by
        rw [← iter_add]
        congr 1
        omega
      rw [h0, iter_null, hper] at hsplit
      exact hsplit
    · have hsplit : iter s n x = iter s (n - p) (iter s p x) := by
        rw [← iter_add]
        congr 1
        omega
      rw [hper, h0] at hsplit
      exact ih (n - p) (by omega) hsplit.symm

/-- On a walk that terminates within `f` steps, two equal iterates at
distinct times can only be null. -/
theorem iter_repeat_zero {s : Storage} {f i j : Nat} {k : K}
    (hij : i < j) (hjf : j ≤ f) (heq : iter s i k = iter s j k)
    (hend : iter s f k = 0) : iter s i k = 0 := by
  have hper : iter s (j - i) (iter s i k) = iter s i k := by
    have h1 : iter s j k = iter s (j - i) (iter s i k) := by
      rw [← iter_add]
      congr 1
      omega
    rw [← heq] at h1
    exact h1.symm
  have hend' : iter s (f - i) (iter s i k) = 0 := by
    have h2 : iter s f k = iter s (f - i) (iter s i k) := by
      rw [← iter_add]
      congr 1
      omega
    rw [← h2]
    exact hend
  exact eq_zero_of_periodic (by omega) hper (f - i) hend'

@[simp] theorem upChain_null (s : Storage) : ∀ f, upChain s f 0 = []
  | 0 => rfl
  | f + 1 => by simp [upChain]

theorem zero_not_mem_upChain (s : Storage) :
    ∀ (f : Nat) (k : K), (0 : K) ∉ upChain s f k := by
  intro f
  induction f with
  | zero => intro k; simp [upChain]
  | succ f ih =>
    intro k
    unfold upChain
    split
    · simp
    · intro hmem
      rcases List.mem_cons.mp hmem with h0 | h0
      · simp_all
      · exact ih _ h0

/-- Membership in a chain is reachability by iterates of the parent
successor (for nonzero handles). -/
theorem mem_upChain_iff {s : Storage} {x : K} (hx : x ≠ 0) :
    ∀ (f : Nat) (k : K), x ∈ upChain s f k ↔ ∃ i, i < f ∧ iter s i k = x := by
  intro f
  induction f with
  | zero => intro k; simp [upChain]
  | succ f ih =>
    intro k
    unfold upChain
    by_cases hk : k = 0
    · subst hk
      rw [if_pos rfl]
      constructor
      · intro h; cases h
      · rintro ⟨i, _, hi⟩
        rw [iter_null] at hi
        exact absurd hi.symm hx
    · rw [if_neg hk]
      simp only [List.mem_cons, ih]
      constructor
      · rintro (rfl | ⟨i, hif, hit⟩)
        · exact ⟨0, Nat.succ_pos f, rfl⟩
        · exact ⟨i + 1, by omega, hit⟩
      · rintro ⟨i, hif, hit⟩
        cases i with
        | zero => exact Or.inl hit.symm
        | succ i => exact Or.inr ⟨i, by omega, hit⟩

theorem mem_upChain_mono {s : Storage} {x : K} {f g : Nat} {k : K}
    (hfg : f ≤ g) (h : x ∈ upChain s f k) : x ∈ upChain s g k := by
  have hx : x ≠ 0 := by
    intro h0
    subst h0
    exact zero_not_mem_upChain s f k h
  rcases (mem_upChain_iff hx f k).mp h with ⟨i, hif, hit⟩
  exact (mem_upChain_iff hx g k).mpr ⟨i, by omega, hit⟩

/-- A terminating walk visits pairwise distinct handles. -/
theorem upChain_nodup {s : Storage} :
    ∀ {f : Nat} {k : K}, iter s f k = 0 → (upChain s f k).Nodup := by
  intro f
  induction f with
  | zero => intro k _; simp [upChain]
  | succ f ih =>
    intro k hend
    unfold upChain
    by_cases hk : k = 0
    · simp [hk]
    · rw [if_neg hk]
      refine List.nodup_cons.mpr ⟨?_, ih (by rwa [iter_succ] at hend)⟩
      intro hmem
      rcases (mem_upChain_iff hk f (nextP s k)).mp hmem with ⟨i, hif, hit⟩
      have heq : iter s 0 k = iter s (i + 1) k := by
        rw [iter_zero_fuel, iter_succ, hit]
      have h0 := iter_repeat_zero (Nat.succ_pos i) (by omega) heq hend
      rw [iter_zero_fuel] at h0
      exact hk h0

/-- Chains only read the parent successor. -/
theorem upChain_congr {s s' : Storage} (h : ∀ x, nextP s' x = nextP s x) :
    ∀ (f : Nat) (k : K), upChain s' f k = upChain s f k := by
  intro f
  induction f with
  | zero => intro k; rfl
  | succ f ih =>
    intro k
    unfold upChain
    rw [h k, ih]

theorem iter_congr {s s' : Storage} (h : ∀ x, nextP s' x = nextP s x) :
    ∀ (i : Nat) (k : K), iter s' i k = iter s i k := by
  intro i
  induction i with
  | zero => intro k; rfl
  | succ i ih =>
    intro k
    rw [iter_succ, iter_succ, h k, ih]

/-- Chain congruence from agreement of the parent successor along the
chain itself. -/
theorem upChain_congr_on {s s' : Storage} :
    ∀ {f : Nat} {k : K}, (∀ x ∈ upChain s f k, nextP s' x = nextP s x) →
      upChain s' f k = upChain s f k := by
  intro f
  induction f with
  | zero => intro k _; rfl
  | succ f ih =>
    intro k h
    unfold upChain
    by_cases hk : k = 0
    · rw [if_pos hk, if_pos hk]
    · rw [if_neg hk, if_neg hk]
      have hkmem : k ∈ upChain s (f + 1) k := by
        unfold upChain
        rw [if_neg hk]
        exact List.mem_cons_self _ _
      have hnk := h k hkmem
      rw [hnk]
      congr 1
      refine ih fun x hx => h x ?_
      unfold upChain
      rw [if_neg hk]
      exact List.mem_cons_of_mem _ hx

theorem iter_congr_on {s s' : Storage} :
    ∀ {f : Nat} {k : K}, (∀ x ∈ upChain s f k, nextP s' x = nextP s x) →
      ∀ i ≤ f, iter s' i k = iter s i k := by
  intro f
  induction f with
  | zero =>
    intro k _ i hi
    interval_cases i
    rfl
  | succ f ih =>
    intro k h i hi
    cases i with
    | zero => rfl
    | succ i =>
      by_cases hk : k = 0
      · subst hk
        simp
      · have hkmem : k ∈ upChain s (f + 1) k := by
          unfold upChain
          rw [if_neg hk]
          exact List.mem_cons_self _ _
        rw [iter_succ, iter_succ, h k hkmem]
        refine ih (fun x hx => h x ?_) i (by omega)
        unfold upChain
        rw [if_neg hk]
        exact List.mem_cons_of_mem _ hx

/-- The parent successor ignores `Down`, `Layer` and root writes. -/
theorem nextP_setDown (s : Storage) (k : K) (d : Down) :
    ∀ x, nextP (setDown s k d) x = nextP s x := fun _ => rfl

theorem nextP_setLayer (s : Storage) (k : K) (l : Layer) :
    ∀ x, nextP (setLayer s k l) x = nextP s x := fun _ => rfl

theorem nextP_removeLayer (s : Storage) (k : K) :
    ∀ x, nextP (removeLayer s k) x = nextP s x := fun _ => rfl

theorem nextP_setRoot (s : Storage) (k : K) :
    ∀ x, nextP (setRoot s k) x = nextP s x := fun _ => rfl

theorem nextP_removeRoot (s : Storage) (k : K) :
    ∀ x, nextP (removeRoot s k) x = nextP s x := fun _ => rfl

/-- A sibling-link rewrite (`{u with prev/next := _}`) keeps the stored
parent, hence the parent successor. -/
theorem nextP_setUp_preserve {s : Storage} {k : K} {u0 u : Up}
    (hu0 : s.up k = some u0) (hpar : u.parent = u0.parent) :
    ∀ x, nextP (setUp s k u) x = nextP s x := by
  intro x
  unfold nextP
  by_cases hx : x = 0
  · rw [if_pos hx, if_pos hx]
  · rw [if_neg hx, if_neg hx, setUp_up]
    by_cases hxk : x = k
    · subst hxk
      rw [if_pos rfl, hu0]
      exact hpar
    · rw [if_neg hxk]

theorem nextP_setUp {s : Storage} {k : K} {u : Up} (hk : k ≠ 0) :
    ∀ x, nextP (setUp s k u) x =
      if x = k then u.parent else nextP s x := by
  intro x
  by_cases hxk : x = k
  · subst hxk
    rw [if_pos rfl]
    unfold nextP
    rw [if_neg hk, setUp_up, if_pos rfl]
  · rw [if_neg hxk]
    unfold nextP
    by_cases hx : x = 0
    · rw [if_pos hx, if_pos hx]
    · rw [if_neg hx, if_neg hx, setUp_up, if_neg hxk]

theorem nextP_removeUp (s : Storage) (k : K) :
    ∀ x, nextP (removeUp s k) x = if x = k ∧ x ≠ 0 then 0 else nextP s x := by
  intro x
  by_cases hx : x = 0
  · subst hx
    rw [if_neg (by simp), nextP_zero, nextP_zero]
  · by_cases hxk : x = k
    · subst hxk
      rw [if_pos ⟨rfl, hx⟩]
      unfold nextP
      rw [if_neg hx, removeUp_up, if_pos rfl]
    · rw [if_neg (by simp [hxk])]
      unfold nextP
      rw [if_neg hx, if_neg hx, removeUp_up, if_neg hxk]

theorem upChain_succ {s : Storage} {k : K} (hk : k ≠ 0) (f : Nat) :
    upChain s (f + 1) k = k :: upChain s f (nextP s k) := by
  rw [show upChain s (f + 1) k
      = if k = 0 then [] else k :: upChain s f (nextP s k) from rfl, if_neg hk]

/-- What a completed `modify_count` walk did: `Up`/`Layer`/roots are
untouched, the walk terminates within fuel, every visited node had a
`Down`, and exactly the visited nodes (the chain from the start handle)
got their counts shifted by `c`. -/
theorem modifyCount_spec :
    ∀ (f : Nat) (s : Storage) (k : K) (c : Int) (s' : Storage),
      modifyCount f s k c = .ok s' →
      s'.up = s.up ∧ s'.layer = s.layer ∧ s'.roots = s.roots ∧
      iter s f k = 0 ∧
      (∀ x ∈ upChain s f k, s.down x ≠ none) ∧
      (∀ x, s'.down x =
        if x ∈ upChain s f k
        then (s.down x).map (fun d => { d with count := wadd d.count c })
        else s.down x) := by
  intro f
  induction f with
  | zero =>
    intro s k c s' h
    unfold modifyCount at h
    split at h
    · rename_i hk0
      cases h
      refine ⟨rfl, rfl, rfl, by simp [hk0], ?_, ?_⟩
      · intro x hx
        rw [hk0] at hx
        simp at hx
      · intro x
        rw [hk0]
        simp
    · cases h
  | succ f ih =>
    intro s k c s' h
    unfold modifyCount at h
    split at h
    · rename_i hk0
      cases h
      refine ⟨rfl, rfl, rfl, by simp [hk0], ?_, ?_⟩
      · intro x hx
        rw [hk0] at hx
        simp at hx
      · intro x
        rw [hk0]
        simp
    · rename_i hk0
      dsimp only at h
      split at h
      · cases h
      · rename_i d hd
        rw [setDown_up] at h
        split at h
        · -- up k = some u : recursive case
          rename_i u hu
          have h2 := ih _ u.parent c s' h
          have hnpD := nextP_setDown s k { d with count := wadd d.count c }
          have chainEq := upChain_congr hnpD f u.parent
          have iterEq := iter_congr hnpD f u.parent
          have hnp : nextP s k = u.parent := nextP_some hk0 hu
          have hend : iter s (f + 1) k = 0 := by
            rw [iter_succ, hnp, ← iterEq]
            exact h2.2.2.2.1
          have hknot : k ∉ upChain s f u.parent := by
            intro hmem
            rcases (mem_upChain_iff hk0 f u.parent).mp hmem with ⟨i, hif, hit⟩
            have heq : iter s 0 k = iter s (i + 1) k := by
              rw [iter_zero_fuel, iter_succ, hnp, hit]
            have h0 := iter_repeat_zero (Nat.succ_pos i) (by omega) heq hend
            rw [iter_zero_fuel] at h0
            exact hk0 h0
          have hchain : upChain s (f + 1) k = k :: upChain s f u.parent := by
            rw [upChain_succ hk0, hnp]
          refine ⟨h2.1, h2.2.1, h2.2.2.1, hend, ?_, ?_⟩
          · intro x hx
            rw [hchain] at hx
            rcases List.mem_cons.mp hx with rfl | hx2
            · rw [hd]; exact Option.some_ne_none d
            · have hpres := h2.2.2.2.2.1 x (by rwa [chainEq])
              rw [setDown_down] at hpres
              rw [if_neg (by rintro rfl; exact hknot hx2)] at hpres
              exact hpres
          · intro x
            have hx6 := h2.2.2.2.2.2 x
            rw [chainEq, hchain] at *
            by_cases hxc : x ∈ upChain s f u.parent
            · rw [if_pos hxc] at hx6
              rw [if_pos (List.mem_cons_of_mem _ hxc)]
              have hxk : x ≠ k := by rintro rfl; exact hknot hxc
              rw [hx6, setDown_down, if_neg hxk]
            · rw [if_neg hxc] at hx6
              rw [hx6, setDown_down]
              by_cases hxk : x = k
              · subst hxk
                rw [if_pos rfl, if_pos (List.mem_cons_self _ _), hd]
                rfl
              · rw [if_neg hxk, if_neg (by
                  intro hmem
                  rcases List.mem_cons.mp hmem with h' | h'
                  · exact hxk h'
                  · exact hxc h')]
        · -- up k = none : walk breaks here
          rename_i hu
          cases h
          have hnp : nextP s k = 0 := nextP_none hu
          have hchain : upChain s (f + 1) k = [k] := by
            rw [upChain_succ hk0, hnp, upChain_null]
          refine ⟨rfl, rfl, rfl, ?_, ?_, ?_⟩
          · rw [iter_succ, hnp, iter_null]
          · intro x hx
            rw [hchain] at hx
            rcases List.mem_singleton.mp hx with rfl
            rw [hd]
            exact Option.some_ne_none d
          · intro x
            rw [hchain, setDown_down]
            by_cases hxk : x = k
            · subst hxk
              rw [if_pos rfl, if_pos (List.mem_singleton.mpr rfl), hd]
              rfl
            · rw [if_neg hxk, if_neg (by simp [hxk])]

theorem andThen_ok {r : Res} {f : Storage → Res} {s' : Storage} :
    andThen r f = .ok s' ↔ ∃ s, r = .ok s ∧ f s = .ok s' := by
  cases r <;> simp [andThen]

theorem withUp_ok {s : Storage} {k : K} {f : Up → Res} {s' : Storage} :
    withUp s k f = .ok s' ↔ ∃ u, s.up k = some u ∧ f u = .ok s' := by
  unfold withUp
  cases h : s.up k <;> simp

theorem withDown_ok {s : Storage} {k : K} {f : Down → Res} {s' : Storage} :
    withDown s k f = .ok s' ↔ ∃ d, s.down k = some d ∧ f d = .ok s' := by
  unfold withDown
  cases h : s.down k <;> simp

/-- `remove_tree` mutates only `Layer` records: `Up`, `Down` and the root
registry are untouched by a completed call. -/
theorem removeTree_preserves {f : Nat} {s s' : Storage} {k : K}
    (h : removeTree f s k = .ok s') :
    s'.up = s.up ∧ s'.down = s.down ∧ s'.roots = s.roots := by
  induction f generalizing s k s' with
  | zero =>
    unfold removeTree at h
    split at h
    · cases h; exact ⟨rfl, rfl, rfl⟩
    · cases h
  | succ f ih =>
    unfold removeTree at h
    split at h
    · cases h; exact ⟨rfl, rfl, rfl⟩
    · dsimp only at h
      split at h
      · cases h; exact ⟨rfl, rfl, rfl⟩
      · rcases andThen_ok.mp h with ⟨s2, h2, h3⟩
        rcases withUp_ok.mp h3 with ⟨u, _, h4⟩
        have e2 := ih h2
        have e4 := ih h4
        refine ⟨?_, ?_, ?_⟩ <;>
          simp [e4.1, e4.2.1, e4.2.2, e2.1, e2.2.1, e2.2.2]

/-- `removeStrip` mutates only `Layer` records and the root registry. -/
theorem removeStrip_preserves {f : Nat} {s s' : Storage} {id : K}
    (h : removeStrip f s id = .ok s') : s'.up = s.up ∧ s'.down = s.down := by
  unfold removeStrip at h
  split at h
  · split at h
    · dsimp only at h
      have hp := removeTree_preserves h
      constructor
      · rw [hp.1]; split <;> rfl
      · rw [hp.2.1]; split <;> rfl
    · cases h; exact ⟨rfl, rfl⟩
  · cases h; exact ⟨rfl, rfl⟩

theorem not_mem_upChain_self {s : Storage} {f : Nat} {k : K} (hk : k ≠ 0)
    (hend : iter s f (nextP s k) = 0) : k ∉ upChain s f (nextP s k) := by
  intro hmem
  rcases (mem_upChain_iff hk f (nextP s k)).mp hmem with ⟨i, hif, hit⟩
  have hend' : iter s (f + 1) k = 0 := by rw [iter_succ]; exact hend
  have heq : iter s 0 k = iter s (i + 1) k := by
    rw [iter_zero_fuel, iter_succ, hit]
  have h0 := iter_repeat_zero (Nat.succ_pos i) (by omega) heq hend'
  rw [iter_zero_fuel] at h0
  exact hk h0

theorem parentOf_eq_nextP {s : Storage} {p : K} (hp : p ≠ 0) :
    parentOf s p = nextP s p := by
  unfold parentOf nextP
  rw [if_neg hp]

theorem nextP_eq_of_up_eq {s s' : Storage} (h : s'.up = s.up) :
    ∀ x, nextP s' x = nextP s x := by
  intro x
  unfold nextP
  rw [h]

/-- A sibling-link fix step (`up(q).next := n`): parents, downs, layers and
roots are untouched. -/
theorem sibFixNext_spec {s s' : Storage} {q n : K}
    (h : (if q ≠ 0 then withUp s q fun u => .ok (setUp s q { u with next := n })
          else .ok s) = .ok s') :
    (∀ x, nextP s' x = nextP s x) ∧ s'.down = s.down ∧ s'.layer = s.layer ∧
      s'.roots = s.roots := by
  split at h
  · rcases withUp_ok.mp h with ⟨u, hu, h2⟩
    cases h2
    exact ⟨nextP_setUp_preserve hu rfl, rfl, rfl, rfl⟩
  · cases h
    exact ⟨fun _ => rfl, rfl, rfl, rfl⟩

/-- A sibling-link fix step (`up(q).prev := n`): parents, downs, layers and
roots are untouched. -/
theorem sibFixPrev_spec {s s' : Storage} {q n : K}
    (h : (if q ≠ 0 then withUp s q fun u => .ok (setUp s q { u with prev := n })
          else .ok s) = .ok s') :
    (∀ x, nextP s' x = nextP s x) ∧ s'.down = s.down ∧ s'.layer = s.layer ∧
      s'.roots = s.roots := by
  split at h
  · rcases withUp_ok.mp h with ⟨u, hu, h2⟩
    cases h2
    exact ⟨nextP_setUp_preserve hu rfl, rfl, rfl, rfl⟩
  · cases h
    exact ⟨fun _ => rfl, rfl, rfl, rfl⟩

/-- What a completed `remove_node` did: `id` loses its `Up`, every other
stored parent survives; the parent's `Down` gets the spliced head/tail and
decremented len/count; each chain node above the parent loses `count`;
every other `Down` survives; only `id`'s layer changes; roots survive. -/
theorem removeNode_spec {f : Nat} {s0 s1 : Storage} {id parent : K}
    {count : Nat} {prev next : K}
    (h : removeNode f s0 id parent count prev next = .ok s1)
    (hpar : parent ≠ 0) (hid : id ≠ 0) :
    (∀ x, nextP s1 x = if x = id then 0 else nextP s0 x) ∧
    s1.up id = none ∧
    s1.roots = s0.roots ∧
    (∀ x, x ≠ id → s1.layer x = s0.layer x) ∧
    iter s0 (f + 1) parent = 0 ∧
    ∃ dP, s0.down parent = some dP ∧
      s1.down parent = some
        { head := if prev = 0 then next else dP.head
          tail := if next = 0 then prev else dP.tail
          len := wsub dP.len 1
          count := wsub dP.count count } ∧
      (∀ x ∈ upChain s0 f (nextP s0 parent), x ≠ parent ∧ s0.down x ≠ none ∧
        s1.down x = (s0.down x).map
          (fun d => { d with count := wadd d.count (-(count : Int)) })) ∧
      (∀ x, x ≠ parent → x ∉ upChain s0 f (nextP s0 parent) →
        s1.down x = s0.down x) := by
  unfold removeNode at h
  rcases andThen_ok.mp h with ⟨sa, ha, h⟩
  rcases andThen_ok.mp h with ⟨sb, hb, h⟩
  have hA := sibFixNext_spec ha
  have hB := sibFixPrev_spec hb
  rcases withDown_ok.mp h with ⟨dP, hdP, h⟩
  dsimp only at h
  rw [parentOf_eq_nextP hpar] at h
  rcases andThen_ok.mp h with ⟨s4, hmc, h⟩
  cases h
  set d1 : Down :=
    { head := if prev = 0 then next else dP.head
      tail := if next = 0 then prev else dP.tail
      len := wsub dP.len 1
      count := wsub dP.count count } with hd1
  have hnb : ∀ x, nextP sb x = nextP s0 x := fun x => (hB.1 x).trans (hA.1 x)
  have hnb3 : ∀ x, nextP (setDown sb parent d1) x = nextP s0 x := fun x =>
    (nextP_setDown sb parent d1 x).trans (hnb x)
  have hmcs := modifyCount_spec f _ _ _ _ hmc
  have hup4 : s4.up = sb.up := hmcs.1.trans (setDown_up sb parent d1)
  have hchainEq : upChain (setDown sb parent d1) f (nextP (setDown sb parent d1) parent)
      = upChain s0 f (nextP s0 parent) := by
    rw [upChain_congr hnb3, hnb3]
  have hiterEq : iter (setDown sb parent d1) f (nextP (setDown sb parent d1) parent)
      = iter s0 f (nextP s0 parent) := by
    rw [iter_congr hnb3, hnb3]
  have hend : iter s0 (f + 1) parent = 0 := by
    rw [iter_succ, ← hiterEq]
    exact hmcs.2.2.2.1
  have hpnot : parent ∉ upChain s0 f (nextP s0 parent) :=
    not_mem_upChain_self hpar (by rw [← iter_succ]; exact hend)
  have hdownb : sb.down = s0.down := hB.2.1.trans hA.2.1
  have hdown4 : ∀ x, s4.down x =
      if x ∈ upChain s0 f (nextP s0 parent)
      then (s0.down x).map (fun d => { d with count := wadd d.count (-(count : Int)) })
      else if x = parent then some d1 else s0.down x := by
    intro x
    have hc := hmcs.2.2.2.2.2 x
    rw [hchainEq] at hc
    by_cases hmem : x ∈ upChain s0 f (nextP s0 parent)
    · rw [if_pos hmem] at hc ⊢
      have hxp : x ≠ parent := by rintro rfl; exact hpnot hmem
      rw [hc, setDown_down, if_neg hxp, hdownb]
    · rw [if_neg hmem] at hc ⊢
      rw [hc, setDown_down]
      by_cases hxp : x = parent
      · rw [if_pos hxp, if_pos hxp]
      · rw [if_neg hxp, if_neg hxp, hdownb]
  refine ⟨?_, ?_, ?_, ?_, hend, dP, by rw [← hdownb]; exact hdP, ?_, ?_, ?_⟩
  · intro x
    have h1 := nextP_removeUp (removeLayer s4 id) id x
    have h2 : nextP (removeLayer s4 id) x = nextP s0 x :=
      (nextP_removeLayer s4 id x).trans ((nextP_eq_of_up_eq hup4 x).trans (hnb x))
    rw [h1, h2]
    by_cases hxi : x = id
    · subst hxi
      rw [if_pos ⟨rfl, hid⟩, if_pos rfl]
    · rw [if_neg (by simp [hxi]), if_neg hxi]
  · show (removeUp (removeLayer s4 id) id).up id = none
    rw [removeUp_up, if_pos rfl]
  · show (removeUp (removeLayer s4 id) id).roots = s0.roots
    have : s4.roots = sb.roots := hmcs.2.2.1.trans (setDown_roots sb parent d1)
    rw [removeUp_roots, removeLayer_roots, this, hB.2.2.2, hA.2.2.2]
  · intro x hxi
    show (removeUp (removeLayer s4 id) id).layer x = s0.layer x
    have h4 : s4.layer = sb.layer := hmcs.2.1.trans (setDown_layer sb parent d1)
    rw [removeUp_layer, removeLayer_layer, if_neg hxi, h4, hB.2.2.1, hA.2.2.1]
  · show (removeUp (removeLayer s4 id) id).down parent = some d1
    rw [removeUp_down, removeLayer_down, hdown4 parent, if_neg hpnot, if_pos rfl]
  · intro x hx
    have hxp : x ≠ parent := by rintro rfl; exact hpnot hx
    refine ⟨hxp, ?_, ?_⟩
    · have := hmcs.2.2.2.2.1 x (by rwa [hchainEq])
      rw [setDown_down, if_neg hxp, hdownb] at this
      exact this
    · show (removeUp (removeLayer s4 id) id).down x = _
      rw [removeUp_down, removeLayer_down, hdown4 x, if_pos hx]
  · intro x hxp hx
    show (removeUp (removeLayer s4 id) id).down x = s0.down x
    rw [removeUp_down, removeLayer_down, hdown4 x, if_neg hx, if_neg hxp]

theorem iter_fixed {s : Storage} {k : K} (h : nextP s k = k) :
    ∀ i, iter s i k = k := by
  intro i
  induction i with
  | zero => rfl
  | succ i ih => rw [iter_succ, h, ih]

/-- A handle whose stored parent is `k` cannot lie on `k`'s own proper
ancestor chain (when that chain terminates). -/
theorem not_mem_upChain_pointing {s : Storage} {f : Nat} {k y : K}
    (hpt : nextP s y = k) (hk : k ≠ 0) (hend : iter s (f + 1) k = 0) :
    y ∉ upChain s f (nextP s k) := by
  intro hmem
  have hy : y ≠ 0 := by
    intro h0
    subst h0
    exact zero_not_mem_upChain s f (nextP s k) hmem
  rcases (mem_upChain_iff hy f (nextP s k)).mp hmem with ⟨i, hif, hit⟩
  have h2 : iter s (i + 2) k = iter s 0 k := by
    have ha : iter s (i + 1) k = y := by rw [iter_succ, hit]
    have : i + 2 = (i + 1) + 1 := rfl
    rw [this, iter_add s (i + 1) 1 k, ha]
    simp [iter_succ, hpt]
  have h0 := iter_repeat_zero (show 0 < i + 2 by omega) (show i + 2 ≤ f + 1 by omega)
    h2.symm hend
  rw [iter_zero_fuel] at h0
  exact hk h0

theorem subCount_eq_of_down_eq {s s' : Storage} {k : K}
    (h : s'.down k = s.down k) : subCount s' k = subCount s k := by
  unfold subCount
  rw [h]

theorem wsub_eq_wadd_neg (a b : Nat) : wsub a b = wadd a (-(b : Int)) := by
  unfold wsub wadd
  rw [sub_eq_add_neg]

theorem waddn_eq_wadd (a b : Nat) : waddn a b = wadd a (b : Int) := by
  unfold waddn wadd
  have hW : (0 : Int) < (W : Int) := by unfold W; positivity
  have h1 : ((a : Int) + (b : Int)) % (W : Int) = (((a + b) % W : Nat) : Int) := by
    push_cast
    rfl
  rw [h1, Int.toNat_ofNat]

theorem wadd_cancel {a : Nat} {c : Int} (ha : a < W) :
    wadd (wadd a (-c)) c = a := by
  unfold wadd
  have hW : (0 : Int) < (W : Int) := by unfold W; positivity
  have h1 : (((a : Int) + -c) % (W : Int)) ≥ 0 := Int.emod_nonneg _ (by omega)
  rw [Int.toNat_of_nonneg h1, Int.emod_add_emod]
  have h2 : (a : Int) + -c + c = (a : Int) := by ring
  rw [h2, Int.emod_eq_of_lt (by positivity) (by exact_mod_cast ha)]
  exact Int.toNat_ofNat a

/-- `insert_tree` mutates only `Layer` records. -/
theorem insertTree_preserves {f : Nat} {s s' : Storage} {k : K} {dep : Nat} {rt : K}
    (h : insertTree f s k dep rt = .ok s') :
    s'.up = s.up ∧ s'.down = s.down ∧ s'.roots = s.roots := by
  induction f generalizing s k dep rt s' with
  | zero =>
    unfold insertTree at h
    split at h
    · cases h; exact ⟨rfl, rfl, rfl⟩
    · cases h
  | succ f ih =>
    unfold insertTree at h
    split at h
    · cases h; exact ⟨rfl, rfl, rfl⟩
    · dsimp only at h
      rcases andThen_ok.mp h with ⟨s2, h2, h3⟩
      have e2 := ih h2
      have e3 := ih h3
      refine ⟨?_, ?_, ?_⟩ <;>
        simp [e3.1, e3.2.1, e3.2.2, e2.1, e2.2.1, e2.2.2]

/-- What a completed `remove` did to a node that has a parent, in terms of
the starting storage (the strip phase only touches layers and roots). -/
theorem remove_spec {f : Nat} {s s1 : Storage} {id : K} {uid : Up}
    (h : remove f s id = .ok s1) (hu : s.up id = some uid)
    (hpar : uid.parent ≠ 0) (hid : id ≠ 0) :
    (∀ x, nextP s1 x = if x = id then 0 else nextP s x) ∧
    s1.up id = none ∧
    iter s (f + 1) uid.parent = 0 ∧
    ∃ dP, s.down uid.parent = some dP ∧
      s1.down uid.parent = some
        { head := if uid.prev = 0 then uid.next else dP.head
          tail := if uid.next = 0 then uid.prev else dP.tail
          len := wsub dP.len 1
          count := wsub dP.count (subCount s id) } ∧
      (∀ x ∈ upChain s f (nextP s uid.parent), x ≠ uid.parent ∧ s.down x ≠ none ∧
        s1.down x = (s.down x).map
          (fun d => { d with count := wadd d.count (-(subCount s id : Int)) })) ∧
      (∀ x, x ≠ uid.parent → x ∉ upChain s f (nextP s uid.parent) →
        s1.down x = s.down x) := by
  unfold remove at h
  rcases andThen_ok.mp h with ⟨sA, hstrip, h2⟩
  have hpres := removeStrip_preserves hstrip
  have hupA : sA.up id = some uid := by rw [hpres.1]; exact hu
  unfold removePhase2 at h2
  rw [hupA] at h2
  dsimp only at h2
  rw [if_pos hpar] at h2
  have hsc : subCount sA id = subCount s id :=
    subCount_eq_of_down_eq (congrFun hpres.2 id)
  rw [hsc] at h2
  have hrn := removeNode_spec h2 hpar hid
  have hnA : ∀ x, nextP sA x = nextP s x := nextP_eq_of_up_eq hpres.1
  have hchainA : upChain sA f (nextP sA uid.parent) = upChain s f (nextP s uid.parent) := by
    rw [upChain_congr hnA, hnA]
  refine ⟨?_, hrn.2.1, ?_, ?_⟩
  · intro x
    rw [hrn.1 x, hnA x]
  · have := hrn.2.2.2.2.1
    rw [iter_congr hnA] at this
    exact this
  · rcases hrn.2.2.2.2.2 with ⟨dP, hdP, hP, hchain, helse⟩
    rw [congrFun hpres.2 uid.parent] at hdP
    refine ⟨dP, hdP, hP, ?_, ?_⟩
    · intro x hx
      have hx' : x ∈ upChain sA f (nextP sA uid.parent) := by rwa [hchainA]
      rcases hchain x hx' with ⟨hxp, hdn, hmap⟩
      rw [congrFun hpres.2 x] at hdn hmap
      exact ⟨hxp, hdn, hmap⟩
    · intro x hxp hx
      have hx' : x ∉ upChain sA f (nextP sA uid.parent) := by rwa [hchainA]
      have := helse x hxp hx'
      rw [congrFun hpres.2 x] at this
      exact this

theorem insertNodeFresh_eval (s0 : Storage) (id q : K) (ly : Layer)
    (prev next : K) :
    insertNodeFresh s0 id q ly prev next
      = ((subCount s0 id, headOf s0 id, 0),
         setUp (if ly.layer ≠ none then setLayer s0 id ly else s0) id
           ⟨q, prev, next⟩) := by
  have hd : (setUp (if ly.layer ≠ none then setLayer s0 id ly else s0) id
      ⟨q, prev, next⟩).down id = s0.down id := by
    rw [setUp_down]
    split <;> rfl
  unfold insertNodeFresh subCount headOf
  dsimp only
  rw [hd]
  cases hsd : s0.down id <;> rfl

/-- When `id`'s stored parent is null (no `Up`, or a null parent field),
the opening match of `insert_node` takes the fresh-attach arm. -/
theorem insertNodeStep1_fresh {s0 : Storage} {id parent : K} {ly : Layer}
    {prev next : K} (hfresh : parentOf s0 id = 0) :
    insertNodeStep1 s0 id parent ly prev next
      = some (insertNodeFresh s0 id parent ly prev next) := by
  unfold insertNodeStep1
  unfold parentOf at hfresh
  split
  · rename_i n hn
    rw [hn] at hfresh
    dsimp only at hfresh
    rw [if_neg (by simp [hfresh])]
  · rfl

/-- What a completed fresh attach (`insert_node` on an `id` whose stored
parent is null) did to the `Down` records, phrased against `sb := setUp s0
id ⟨q, prev, next⟩` (the storage whose parent successor is the post-attach
one). -/
theorem insertNode_fresh_spec {f : Nat} {s0 s2 : Storage} {id q : K}
    {ly : Layer} {prev next : K}
    (h : insertNode f s0 id q ly prev next = .ok s2)
    (hfresh : parentOf s0 id = 0) (hq : q ≠ 0) (hid : id ≠ 0)
    (hcnt : subCount s0 id ≠ 0) :
    q ≠ id ∧
    iter (setUp s0 id ⟨q, prev, next⟩) (f + 1) q = 0 ∧
    (∀ x, nextP s2 x = nextP (setUp s0 id ⟨q, prev, next⟩) x) ∧
    s2.down q = some
      { head := if prev = 0 then id else ((s0.down q).getD ⟨0, 0, 0, 0⟩).head
        tail := if next = 0 then id else ((s0.down q).getD ⟨0, 0, 0, 0⟩).tail
        len := waddn ((s0.down q).getD ⟨0, 0, 0, 0⟩).len 1
        count := waddn ((s0.down q).getD ⟨0, 0, 0, 0⟩).count (subCount s0 id) } ∧
    (∀ x ∈ upChain (setUp s0 id ⟨q, prev, next⟩) f
        (nextP (setUp s0 id ⟨q, prev, next⟩) q),
      x ≠ q ∧ s0.down x ≠ none ∧
      s2.down x = (s0.down x).map
        (fun d => { d with count := wadd d.count ((subCount s0 id : Nat) : Int) })) ∧
    (∀ x, x ≠ q →
      x ∉ upChain (setUp s0 id ⟨q, prev, next⟩) f
        (nextP (setUp s0 id ⟨q, prev, next⟩) q) →
      s2.down x = s0.down x) := by
  unfold insertNode at h
  rw [insertNodeStep1_fresh hfresh, insertNodeFresh_eval] at h
  dsimp only at h
  -- h : insertNodeRest f id q ly prev next (subCount s0 id) (headOf s0 id) 0 sb0 = .ok s2
  set sb0 := setUp (if ly.layer ≠ none then setLayer s0 id ly else s0) id
    ⟨q, prev, next⟩ with hsb0
  set sb := setUp s0 id ⟨q, prev, next⟩ with hsb
  have hnb0 : ∀ x, nextP sb0 x = nextP sb x := by
    intro x
    rw [hsb0, hsb]
    by_cases hly : ly.layer ≠ none
    · rw [if_pos hly]
      rw [nextP_setUp hid, nextP_setUp hid]
      split
      · rfl
      · exact nextP_setLayer s0 id ly x
    · rw [if_neg hly]
  have hdownb0 : sb0.down = s0.down := by
    rw [hsb0, setUp_down]
    split <;> rfl
  unfold insertNodeRest at h
  rcases andThen_ok.mp h with ⟨sc, hc, h2⟩
  clear h
  rcases andThen_ok.mp h2 with ⟨sd, hd, h3⟩
  clear h2
  have hC := sibFixNext_spec hc
  have hD := sibFixPrev_spec hd
  rcases andThen_ok.mp h3 with ⟨se, he, h4⟩
  clear h3
  rw [if_neg hcnt] at he
  cases he
  have hnd : ∀ x, nextP sd x = nextP sb x := fun x =>
    (hD.1 x).trans ((hC.1 x).trans (hnb0 x))
  have hdownd : sd.down = s0.down := hD.2.1.trans (hC.2.1.trans hdownb0)
  dsimp only at h4
  rw [congrFun hdownd q] at h4
  rw [parentOf_eq_nextP hq] at h4
  rcases andThen_ok.mp h4 with ⟨s6, hmc, h5⟩
  clear h4
  have hmcs := modifyCount_spec f _ _ _ _ hmc
  set pdc : Down := (s0.down q).getD ⟨0, 0, 0, 0⟩ with hpdc
  set pd2 : Down :=
    { head := if prev = 0 then id else pdc.head
      tail := if next = 0 then id else pdc.tail
      len := waddn pdc.len 1
      count := waddn pdc.count (subCount s0 id) } with hpd2
  set sE := setDown sd q pd2 with hsE
  -- final (layer-stamping) phase preserves up and down
  have hfin : s2.up = s6.up ∧ s2.down = s6.down := by
    split at h5
    · split at h5
      · rcases andThen_ok.mp h5 with ⟨s7, h7, h8⟩
        cases h8
        have hit := insertTree_preserves h7
        exact ⟨hit.1, hit.2.1⟩
      · cases h5
        exact ⟨rfl, rfl⟩
    · cases h5
      exact ⟨rfl, rfl⟩
  have hnE : ∀ x, nextP sE x = nextP sb x := fun x =>
    (nextP_setDown sd q pd2 x).trans (hnd x)
  have hchainEq : upChain sE f (nextP sE q) = upChain sb f (nextP sb q) := by
    rw [upChain_congr hnE, hnE q]
  have hiterEq : iter sE f (nextP sE q) = iter sb f (nextP sb q) := by
    rw [iter_congr hnE, hnE q]
  have hendb : iter sb (f + 1) q = 0 := by
    rw [iter_succ, ← hiterEq]
    exact hmcs.2.2.2.1
  have hqnot : q ∉ upChain sb f (nextP sb q) :=
    not_mem_upChain_self hq (by rw [← iter_succ]; exact hendb)
  have hqid : q ≠ id := by
    rintro rfl
    have hfix : nextP sb q = q := by
      rw [hsb, nextP_setUp hid, if_pos rfl]
    have hq0 := iter_fixed hfix (f + 1)
    rw [hendb] at hq0
    exact hq hq0.symm
  have hdown6 : ∀ x, s6.down x =
      if x ∈ upChain sb f (nextP sb q)
      then (s0.down x).map
        (fun d => { d with count := wadd d.count ((subCount s0 id : Nat) : Int) })
      else if x = q then some pd2 else s0.down x := by
    intro x
    have hc6 := hmcs.2.2.2.2.2 x
    rw [hchainEq] at hc6
    by_cases hmem : x ∈ upChain sb f (nextP sb q)
    · rw [if_pos hmem] at hc6 ⊢
      have hxq : x ≠ q := by rintro rfl; exact hqnot hmem
      rw [hc6, hsE, setDown_down, if_neg hxq, congrFun hdownd x]
    · rw [if_neg hmem] at hc6 ⊢
      rw [hc6, hsE, setDown_down]
      by_cases hxq : x = q
      · rw [if_pos hxq, if_pos hxq]
      · rw [if_neg hxq, if_neg hxq, congrFun hdownd x]
  have hn2 : ∀ x, nextP s2 x = nextP sb x := by
    intro x
    have h1 : s2.up = sE.up := hfin.1.trans hmcs.1
    exact (nextP_eq_of_up_eq h1 x).trans (hnE x)
  refine ⟨hqid, hendb, hn2, ?_, ?_, ?_⟩
  · rw [congrFun hfin.2 q, hdown6 q, if_neg hqnot, if_pos rfl, hpd2]
  · intro x hx
    have hxq : x ≠ q := by rintro rfl; exact hqnot hx
    refine ⟨hxq, ?_, ?_⟩
    · have hpr := hmcs.2.2.2.2.1 x (by rwa [hchainEq])
      rw [hsE, setDown_down, if_neg hxq, congrFun hdownd x] at hpr
      exact hpr
    · rw [congrFun hfin.2 x, hdown6 x, if_pos hx]
  · intro x hxq hx
    rw [congrFun hfin.2 x, hdown6 x, if_neg hx, if_neg hxq]

/-- A completed `insert_child` under a non-null parent went through
`insert_node` with that parent (for some layer and splice slot). -/
theorem insertChild_ok_insertNode {dbg : Bool} {f : Nat} {s s2 : Storage}
    {id q : K} {ord : Nat} (h : insertChild dbg f s id q ord = .ok s2)
    (hq : q ≠ 0) :
    ∃ ly prev next, insertNode f s id q ly prev next = .ok s2 := by
  unfold insertChild at h
  split at h
  · cases h
  · dsimp only at h
    split at h
    · cases h
    · rename_i prev next heq
      exact ⟨_, prev, next, h⟩

/-- A completed `insert_brother` whose brother has a stored non-null parent
went through `insert_node` with that parent. -/
theorem insertBrother_ok_insertNode {dbg : Bool} {f : Nat} {s s2 : Storage}
    {id b : K} {ins : InsertType} {u : Up}
    (h : insertBrother dbg f s id b ins = .ok s2) (hu : s.up b = some u)
    (hq : u.parent ≠ 0) :
    ∃ ly prev next, insertNode f s id u.parent ly prev next = .ok s2 := by
  unfold insertBrother at h
  rw [hu] at h
  dsimp only at h
  cases ins with
  | Front =>
    dsimp only at h
    split at h
    · cases h
    · exact ⟨_, _, _, h⟩
  | Back =>
    dsimp only at h
    split at h
    · cases h
    · exact ⟨_, _, _, h⟩

/-- Claim C7: for every attached node `id` with a proper ancestor `A`,
removing `id` and then — with no intervening mutation — re-attaching it via
`insert_child` or `insert_brother` at any position that again lies below
`A` restores `Down(A).count` to its value before the remove.  (`A` below:
the derived attach parent `q` satisfies `A ∈ {q} ∪ ancestors(q)` after the
remove; the count stored at `A` is a `usize`, i.e. `< 2^64`, and `id`'s
subtree size does not overflow.) -/
theorem c7_count_conservation
    {f : Nat} {s s1 s2 : Storage} {id A q : K} {uid : Up}
    (hu : s.up id = some uid) (hid : id ≠ 0)
    (hA : A ∈ upChain s (f + 1) uid.parent)
    (hrem : remove f s id = .ok s1)
    (hatt : (∃ dbg ord, insertChild dbg f s1 id q ord = .ok s2) ∨
            (∃ dbg b ins u, s1.up b = some u ∧ u.parent = q ∧
              insertBrother dbg f s1 id b ins = .ok s2))
    (hq : q ≠ 0)
    (hbelow : A ∈ upChain s1 (f + 1) q)
    (hWA : ∀ d, s.down A = some d → d.count < W)
    (hsc : subCount s id ≠ 0) :
    ∃ dA dA2, s.down A = some dA ∧ s2.down A = some dA2 ∧
      dA2.count = dA.count := by
  have hpar : uid.parent ≠ 0 := by
    intro h0
    rw [h0, upChain_null] at hA
    cases hA
  have hrs := remove_spec hrem hu hpar hid
  rcases hrs with ⟨hnext1, hfresh, hendR, dP, hdP, hP1, hchainR, helseR⟩
  have hidP : id ≠ uid.parent := by
    intro h0
    have hfix : nextP s id = id := by rw [nextP_some hid hu, ← h0]
    have hiter := iter_fixed hfix (f + 1)
    rw [← h0] at hendR
    rw [hendR] at hiter
    exact hid hiter.symm
  have hidchain : id ∉ upChain s f (nextP s uid.parent) :=
    not_mem_upChain_pointing (nextP_some hid hu) hpar hendR
  have hdownid : s1.down id = s.down id := helseR id hidP hidchain
  have hsc1 : subCount s1 id = subCount s id := subCount_eq_of_down_eq hdownid
  have hsc1' : subCount s1 id ≠ 0 := by rw [hsc1]; exact hsc
  -- the re-attach goes through a fresh insert_node under q
  have hn : ∃ ly prev next, insertNode f s1 id q ly prev next = .ok s2 := by
    rcases hatt with ⟨dbg, ord, hic⟩ | ⟨dbg, b, ins, u, hub, hupar, hib⟩
    · exact insertChild_ok_insertNode hic hq
    · rcases insertBrother_ok_insertNode hib hub (by rw [hupar]; exact hq)
        with ⟨ly, prev, next, hin⟩
      rw [hupar] at hin
      exact ⟨ly, prev, next, hin⟩
  rcases hn with ⟨ly, prev, next, hin⟩
  have hfresh' : parentOf s1 id = 0 := by
    unfold parentOf
    rw [hfresh]
  have hins := insertNode_fresh_spec hin hfresh' hq hid hsc1'
  rcases hins with ⟨hqid, hendI, hn2, hdq, hchainI, helseI⟩
  -- chains of the mid-insert storage agree with those of s1
  have hnsb : ∀ x, nextP (setUp s1 id ⟨q, prev, next⟩) x
      = if x = id then q else nextP s1 x := nextP_setUp hid
  have hnbq : nextP (setUp s1 id ⟨q, prev, next⟩) q = nextP s1 q := by
    rw [hnsb q, if_neg hqid]
  have hidnotI : id ∉ upChain (setUp s1 id ⟨q, prev, next⟩) f
      (nextP (setUp s1 id ⟨q, prev, next⟩) q) :=
    not_mem_upChain_pointing (by rw [hnsb id, if_pos rfl]) hq hendI
  have hchEq : upChain s1 f (nextP s1 q)
      = upChain (setUp s1 id ⟨q, prev, next⟩) f
          (nextP (setUp s1 id ⟨q, prev, next⟩) q) := by
    rw [← hnbq]
    refine upChain_congr_on fun x hx => ?_
    rw [hnsb x, if_neg (by rintro rfl; exact hidnotI hx)]
  -- effect of the remove on A
  rw [upChain_succ hpar] at hA
  have hremA : ∃ dA dA1, s.down A = some dA ∧ s1.down A = some dA1 ∧
      dA1.count = wadd dA.count (-(subCount s id : Int)) := by
    rcases List.mem_cons.mp hA with rfl | hAr
    · exact ⟨dP, _, hdP, hP1, wsub_eq_wadd_neg _ _⟩
    · rcases hchainR A hAr with ⟨hAne, hAdn, hAmap⟩
      rcases hdn : s.down A with _ | dA
      · exact absurd hdn hAdn
      · rw [hdn] at hAmap
        exact ⟨dA, _, rfl, hAmap, rfl⟩
  rcases hremA with ⟨dA, dA1, hdA, hdA1, hcountA1⟩
  -- effect of the re-attach on A
  rw [upChain_succ hq] at hbelow
  have hinsA : ∃ dA2, s2.down A = some dA2 ∧
      dA2.count = wadd dA1.count ((subCount s1 id : Nat) : Int) := by
    rcases List.mem_cons.mp hbelow with rfl | hAi
    · rw [hdA1] at hdq
      refine ⟨_, hdq, ?_⟩
      simp [waddn_eq_wadd]
    · have hAi' : A ∈ upChain (setUp s1 id ⟨q, prev, next⟩) f
          (nextP (setUp s1 id ⟨q, prev, next⟩) q) := by rwa [← hchEq]
      rcases hchainI A hAi' with ⟨hAq, hAdn, hAmap⟩
      rw [hdA1] at hAmap
      exact ⟨_, hAmap, rfl⟩
  rcases hinsA with ⟨dA2, hdA2, hcountA2⟩
  refine ⟨dA, dA2, hdA, hdA2, ?_⟩
  rw [hcountA2, hsc1, hcountA1, wadd_cancel (hWA dA hdA)]

set_option maxHeartbeats 4000000 in
/-- Witness for claim C7 at a concrete input: in `s1234`, node `2` (subtree
`{2,3,4}`, `Down(2).count = 2`) is removed from below its ancestor `1`
(`Down(1).count` drops from `3` to `0`) and re-attached under `1`; the
conserved count at `A = 1` is restored to `3`. -/
theorem c7_count_conservation_witness :
    ∃ dA dA2, s1234.down 1 = some dA ∧ c7s2.down 1 = some dA2 ∧
      dA2.count = dA.count :=
  @c7_count_conservation 30 s1234 c7s1 c7s2 2 1 1 ⟨1, 0, 0⟩
    rfl (by decide) (by decide) rfl
    (Or.inl ⟨true, 0, rfl⟩) (by decide) (by decide)
    (by
      intro d hd
      rw [← Option.some.inj (show some (⟨2, 2, 1, 3⟩ : Down) = some d from hd)]
      decide)
    (by decide)

/-! ## Reachability toolkit for the count invariant -/

theorem iter_absorb {s : Storage} {a b : Nat} {k : K} (h : iter s a k = 0)
    (hab : a ≤ b) : iter s b k = 0 := by
  have hb : b = a + (b - a) := by omega
  rw [hb, iter_add, h, iter_null]

theorem iter_lt_of_ne_zero {s : Storage} {t i : Nat} {k x : K} (hx : x ≠ 0)
    (hit : iter s i k = x) (hend : iter s t k = 0) : i < t := by
  by_contra hcon
  push_neg at hcon
  have h0 := iter_absorb hend hcon
  rw [hit] at h0
  exact hx h0

/-- Membership in a terminating chain is unbounded reachability. -/
theorem mem_upChain_iff_reach {s : Storage} {L : Nat} {k x : K} (hx : x ≠ 0)
    (hend : iter s L k = 0) : x ∈ upChain s L k ↔ Reach s k x := by
  rw [mem_upChain_iff hx]
  constructor
  · rintro ⟨i, _, hit⟩
    exact ⟨i, hit⟩
  · rintro ⟨i, hit⟩
    exact ⟨i, iter_lt_of_ne_zero hx hit hend, hit⟩

/-- A walk that terminates does so within the length of its own chain. -/
theorem iter_chainLength {s : Storage} :
    ∀ {f : Nat} {k : K}, iter s f k = 0 →
      iter s (upChain s f k).length k = 0 := by
  intro f
  induction f with
  | zero =>
    intro k h
    simpa [upChain] using h
  | succ f ih =>
    intro k h
    by_cases hk : k = 0
    · simp [hk]
    · rw [upChain_succ hk]
      rw [iter_succ] at h
      have := ih h
      simpa [List.length_cons, iter_succ] using this

/-- A terminating walk whose chain lies in a duplicate-free universe
absorbs within the size of the universe. -/
theorem iter_nodes_end {s : Storage} {f : Nat} {k : K} {nodes : List K}
    (hend : iter s f k = 0) (hsub : ∀ x ∈ upChain s f k, x ∈ nodes) :
    iter s nodes.length k = 0 := by
  have hchainnd : (upChain s f k).Nodup := upChain_nodup hend
  have hlen : (upChain s f k).length ≤ nodes.length :=
    List.Subperm.length_le (List.subperm_of_subset hchainnd hsub)
  exact iter_absorb (iter_chainLength hend) hlen

/-- Walking one step preserves termination at the same fuel. -/
theorem iter_next_end {s : Storage} {L : Nat} {n : K}
    (h : iter s L n = 0) : iter s L (nextP s n) = 0 := by
  have h1 : iter s (L + 1) n = 0 := iter_absorb h (by omega)
  rwa [iter_succ] at h1

/-- Everything reached from a terminating start also terminates. -/
theorem reach_end {s : Storage} {L a : Nat} {y p : K} (hp : p ≠ 0)
    (hend : iter s L y = 0) (hit : iter s a y = p) : iter s L p = 0 := by
  have ha : a < L := iter_lt_of_ne_zero hp hit hend
  have h1 : iter s (L - a) p = 0 := by
    rw [← hit, ← iter_add]
    have : a + (L - a) = L := by omega
    rw [this]
    exact hend
  exact iter_absorb h1 (by omega)

/-- Every element of a chain is its start or is pointed at by some handle. -/
theorem mem_upChain_pointed {s : Storage} :
    ∀ {F : Nat} {k x : K}, x ∈ upChain s F k →
      x = k ∨ ∃ m, nextP s m = x := by
  intro F
  induction F with
  | zero =>
    intro k x h
    simp [upChain] at h
  | succ F ih =>
    intro k x h
    by_cases hk : k = 0
    · rw [hk, upChain_null] at h
      cases h
    · rw [upChain_succ hk] at h
      rcases List.mem_cons.mp h with rfl | h2
      · exact Or.inl rfl
      · rcases ih h2 with rfl | h3
        · exact Or.inr ⟨k, rfl⟩
        · exact Or.inr h3

/-- A nonzero value of the parent successor comes from a stored `Up`. -/
theorem nextP_pointed {s : Storage} {m x : K} (h : nextP s m = x)
    (hx : x ≠ 0) : ∃ u, s.up m = some u ∧ u.parent = x := by
  unfold nextP at h
  split at h
  · exact absurd h.symm hx
  · split at h
    · exact absurd h.symm hx
    · rename_i u hu
      exact ⟨u, hu, h⟩

/-! ## Chain surgery

`sLo` and `sHi` are two storages whose parent successors agree everywhere
except at a single handle `id`: in `sLo` the chain stops at `id`
(`nextP sLo id = 0`), in `sHi` it continues to `w`.  This is exactly the
relation between the storages before and after attaching (`insert_node`,
fresh case) or, with the roles swapped, detaching (`remove`) the handle
`id` under a parent `w`. -/

/-- Hi-reachability decomposes: either the Lo-walk already got there, or
the walk passes `id` and continues from `w`. -/
theorem surgery_reach_fwd {sLo sHi : Storage} {id w : K}
    (H1 : ∀ x, nextP sHi x = if x = id then w else nextP sLo x)
    {p : K} :
    ∀ (i : Nat) (y : K), iter sHi i y = p →
      Reach sLo y p ∨ ((y = id ∨ Reach sLo y id) ∧ Reach sHi w p) := by
  intro i
  induction i with
  | zero =>
    intro y h
    exact Or.inl ⟨0, h⟩
  | succ i ih =>
    intro y h
    rw [iter_succ] at h
    by_cases hy : y = id
    · subst hy
      rw [H1, if_pos rfl] at h
      exact Or.inr ⟨Or.inl rfl, ⟨i, h⟩⟩
    · rw [H1, if_neg hy] at h
      rcases ih (nextP sLo y) h with ⟨j, hj⟩ | ⟨h2, h3⟩
      · exact Or.inl ⟨j + 1, by rw [iter_succ]; exact hj⟩
      · refine Or.inr ⟨?_, h3⟩
        rcases h2 with heq | ⟨j, hj⟩
        · exact Or.inr ⟨1, by rw [show iter sLo 1 y = nextP sLo y from rfl, heq]⟩
        · exact Or.inr ⟨j + 1, by rw [iter_succ]; exact hj⟩

/-- A Lo-walk to a nonzero target is followed verbatim by the Hi-walk (the
Lo-walk cannot pass `id`, where it would die). -/
theorem surgery_iter_lo_hi {sLo sHi : Storage} {id w : K}
    (H1 : ∀ x, nextP sHi x = if x = id then w else nextP sLo x)
    (H2 : nextP sLo id = 0) {p : K} (hp : p ≠ 0) :
    ∀ (j : Nat) (y : K), iter sLo j y = p → iter sHi j y = p := by
  intro j
  induction j with
  | zero =>
    intro y h
    exact h
  | succ j ih =>
    intro y h
    rw [iter_succ] at h ⊢
    by_cases hy : y = id
    · subst hy
      rw [H2, iter_null] at h
      exact absurd h.symm hp
    · rw [H1, if_neg hy]
      exact ih _ h

/-- Termination transfers from Hi to Lo at the same fuel (the Lo-walk can
only die earlier, at `id`). -/
theorem surgery_ends_hi_lo {sLo sHi : Storage} {id w : K}
    (H1 : ∀ x, nextP sHi x = if x = id then w else nextP sLo x)
    (H2 : nextP sLo id = 0) :
    ∀ (b : Nat) (n : K), iter sHi b n = 0 → iter sLo b n = 0 := by
  intro b
  induction b with
  | zero =>
    intro n h
    exact h
  | succ b ih =>
    intro n h
    rw [iter_succ] at h ⊢
    by_cases hn : n = id
    · subst hn
      rw [H2, iter_null]
    · rw [H1, if_neg hn] at h
      exact ih _ h

/-- Termination transfers from Lo to Hi, with the fuel stretched by the
(terminating) continuation from `w`. -/
theorem surgery_ends_lo_hi {sLo sHi : Storage} {id w : K}
    (H1 : ∀ x, nextP sHi x = if x = id then w else nextP sLo x)
    {a : Nat} (hw : iter sHi a w = 0) :
    ∀ (b : Nat) (n : K), iter sLo b n = 0 → iter sHi (b + 1 + a) n = 0 := by
  intro b
  induction b with
  | zero =>
    intro n h
    rw [show iter sLo 0 n = n from rfl] at h
    rw [h, iter_null]
  | succ b ih =>
    intro n h
    by_cases hn0 : n = 0
    · rw [hn0, iter_null]
    · by_cases hn : n = id
      · subst hn
        have harith : b + 1 + 1 + a = (b + 1 + a) + 1 := by omega
        rw [harith, iter_succ, H1, if_pos rfl]
        exact iter_absorb hw (by omega)
      · rw [iter_succ] at h
        have harith : b + 1 + 1 + a = (b + 1 + a) + 1 := by omega
        rw [harith, iter_succ, H1, if_neg hn]
        exact ih _ h

/-- The reachability form of chain surgery. -/
theorem surgery_reach_iff {sLo sHi : Storage} {id w : K}
    (H1 : ∀ x, nextP sHi x = if x = id then w else nextP sLo x)
    (H2 : nextP sLo id = 0) (hid : id ≠ 0) {p : K} (hp : p ≠ 0) (y : K) :
    Reach sHi y p ↔
      Reach sLo y p ∨ ((y = id ∨ Reach sLo y id) ∧ Reach sHi w p) := by
  constructor
  · rintro ⟨i, hi⟩
    exact surgery_reach_fwd H1 i y hi
  · rintro (⟨j, hj⟩ | ⟨hpass, ⟨i, hi⟩⟩)
    · exact ⟨j, surgery_iter_lo_hi H1 H2 hp j y hj⟩
    · rcases hpass with rfl | ⟨j, hj⟩
      · refine ⟨i + 1, ?_⟩
        rw [iter_succ, H1, if_pos rfl]
        exact hi
      · have hjHi : iter sHi j y = id := surgery_iter_lo_hi H1 H2 hid j y hj
        refine ⟨j + 1 + i, ?_⟩
        have harith : j + 1 + i = j + (1 + i) := by omega
        rw [harith, iter_add, hjHi]
        have h1 : iter sHi (1 + i) id = iter sHi i (nextP sHi id) := by
          rw [show 1 + i = i + 1 from by omega, ← iter_succ]
        rw [h1, H1, if_pos rfl]
        exact hi

/-- Disjointness: when the Hi-chain above `p` terminates, `p` cannot both
lie below the reattachment point (`Reach sHi w p`) and lie on a Lo-walk
that also reaches `id` — that would close a nonzero cycle through `p`. -/
theorem surgery_disjoint {sLo sHi : Storage} {id w : K}
    (H1 : ∀ x, nextP sHi x = if x = id then w else nextP sLo x)
    (H2 : nextP sLo id = 0) (hid : id ≠ 0) {p : K} (hp : p ≠ 0) {T : Nat}
    (hendp : iter sHi T p = 0) (hwp : Reach sHi w p) {y : K}
    (hyp : Reach sLo y p) (hyid : Reach sLo y id) : False := by
  rcases hyp with ⟨b, hb⟩
  rcases hyid with ⟨a, ha⟩
  rcases le_or_lt b a with hba | hab
  · have h3 : iter sLo (a - b) p = iter sLo a y := by
      rw [← hb, ← iter_add]
      congr 1
      omega
    rw [ha] at h3
    have hpiHi : iter sHi (a - b) p = id := surgery_iter_lo_hi H1 H2 hid _ p h3
    rcases hwp with ⟨i, hi⟩
    have hcyc : iter sHi ((a - b) + (1 + i)) p = p := by
      rw [iter_add, hpiHi]
      have h4 : iter sHi (1 + i) id = iter sHi i (nextP sHi id) := by
        rw [show 1 + i = i + 1 from by omega, ← iter_succ]
      rw [h4, H1, if_pos rfl]
      exact hi
    have h0 := eq_zero_of_periodic (by omega) hcyc T hendp
    exact hp h0
  · have h3 : iter sLo (b - a) id = iter sLo b y := by
      rw [← ha, ← iter_add]
      congr 1
      omega
    rw [hb] at h3
    have hba1 : b - a = (b - a - 1) + 1 := by omega
    rw [hba1, iter_succ, H2, iter_null] at h3
    exact hp h3.symm

/-! ## Counting lemmas -/

theorem countP_or_disjoint {l : List K} {p q : K → Bool}
    (h : ∀ a ∈ l, ¬(p a = true ∧ q a = true)) :
    l.countP (fun a => p a || q a) = l.countP p + l.countP q := by
  induction l with
  | nil => rfl
  | cons a l ih =>
    have hd := h a (List.mem_cons_self a l)
    have ht : ∀ b ∈ l, ¬(p b = true ∧ q b = true) := fun b hb =>
      h b (List.mem_cons_of_mem a hb)
    simp only [List.countP_cons, ih ht]
    cases hp : p a with
    | false =>
      cases hq : q a with
      | false => simp
      | true => simp; omega
    | true =>
      cases hq : q a with
      | false => simp; omega
      | true => exact absurd ⟨hp, hq⟩ hd

theorem descCount_congr {s s' : Storage} {nodes : List K} {L : Nat} {p : K}
    (h : ∀ x, nextP s' x = nextP s x) :
    descCount s' nodes L p = descCount s nodes L p := by
  unfold descCount
  apply List.countP_congr
  intro n _
  simp only [decide_eq_true_eq]
  rw [upChain_congr h, h n]

theorem descCount_le_length (s : Storage) (nodes : List K) (L : Nat) (p : K) :
    descCount s nodes L p ≤ nodes.length :=
  List.countP_le_length _

/-- A node with no `Down` record has no descendants, provided every stored
parent has a `Down` and the universe supports the chains. -/
theorem descCount_eq_zero_of_no_down {s : Storage} {nodes : List K} {L : Nat}
    {x : K}
    (hpd : ∀ k u, s.up k = some u → u.parent ≠ 0 → s.down u.parent ≠ none)
    (hdn : s.down x = none) : descCount s nodes L x = 0 := by
  unfold descCount
  rw [List.countP_eq_zero]
  intro n _
  simp only [decide_eq_true_eq]
  intro hmem
  have hx0 : x ≠ 0 := by
    rintro rfl
    exact zero_not_mem_upChain s L (nextP s n) hmem
  have hptr : ∃ m, nextP s m = x := by
    rcases mem_upChain_pointed hmem with heq | hm
    · exact ⟨n, heq.symm⟩
    · exact hm
  rcases hptr with ⟨m, hm⟩
  rcases nextP_pointed hm hx0 with ⟨u, hu, hup⟩
  exact hpd m u hu (by rw [hup]; exact hx0) (by rw [hup]; exact hdn)

/-- The descendant-count ledger of chain surgery: with `id` attached below
`w` (the `sHi` side) each handle's descendant count is its detached-side
(`sLo`) count, plus `1 + descCount id` exactly for `w` and `w`'s
ancestors. -/
theorem surgery_descCount {sLo sHi : Storage} {id w : K} {nodes : List K}
    {L : Nat}
    (H1 : ∀ x, nextP sHi x = if x = id then w else nextP sLo x)
    (H2 : nextP sLo id = 0) (hid : id ≠ 0) (hidm : id ∈ nodes)
    (hnd : nodes.Nodup)
    (hLo : ∀ n ∈ nodes, iter sLo L n = 0)
    (hHi : ∀ n ∈ nodes, iter sHi L n = 0)
    (hw : iter sHi L w = 0)
    {p : K} (hp : p ≠ 0) :
    descCount sHi nodes L p =
      if p ∈ upChain sHi L w
      then descCount sLo nodes L p + (1 + descCount sLo nodes L id)
      else descCount sLo nodes L p := by
  have hnw : nextP sHi id = w := by rw [H1, if_pos rfl]
  have iffW : p ∈ upChain sHi L w ↔ Reach sHi w p :=
    mem_upChain_iff_reach hp hw
  have key : ∀ n ∈ nodes, ((p ∈ upChain sHi L (nextP sHi n)) ↔
      (p ∈ upChain sLo L (nextP sLo n) ∨
        ((n = id ∨ id ∈ upChain sLo L (nextP sLo n)) ∧
          p ∈ upChain sHi L w))) := by
    intro n hn
    by_cases hni : n = id
    · subst hni
      rw [hnw, H2, upChain_null]
      simp
    · have hnn : nextP sHi n = nextP sLo n := by rw [H1, if_neg hni]
      have endHiN : iter sHi L (nextP sLo n) = 0 := by
        rw [← hnn]
        exact iter_next_end (hHi n hn)
      have endLoN : iter sLo L (nextP sLo n) = 0 := iter_next_end (hLo n hn)
      rw [hnn, mem_upChain_iff_reach hp endHiN,
        mem_upChain_iff_reach hp endLoN, mem_upChain_iff_reach hid endLoN,
        iffW, surgery_reach_iff H1 H2 hid hp (nextP sLo n)]
      constructor
      · rintro (h | ⟨hyid, hwp⟩)
        · exact Or.inl h
        · refine Or.inr ⟨?_, hwp⟩
          rcases hyid with heq | hr
          · exact Or.inr ⟨0, heq⟩
          · exact Or.inr hr
      · rintro (h | ⟨hnid, hwp⟩)
        · exact Or.inl h
        · rcases hnid with heq | hr
          · exact absurd heq hni
          · exact Or.inr ⟨Or.inr hr, hwp⟩
  by_cases hpw : p ∈ upChain sHi L w
  · rw [if_pos hpw]
    have hstep : descCount sHi nodes L p
        = nodes.countP (fun n => decide (p ∈ upChain sLo L (nextP sLo n)) ||
            (decide (n = id) ||
              decide (id ∈ upChain sLo L (nextP sLo n)))) := by
      apply List.countP_congr
      intro n hn
      simp only [Bool.or_eq_true, decide_eq_true_eq]
      rw [key n hn]
      constructor
      · rintro (h | ⟨hc, _⟩)
        · exact Or.inl h
        · exact Or.inr hc
      · rintro (h | hc)
        · exact Or.inl h
        · exact Or.inr ⟨hc, hpw⟩
    rw [hstep]
    have hdis1 : ∀ n ∈ nodes,
        ¬(decide (p ∈ upChain sLo L (nextP sLo n)) = true ∧
          (decide (n = id) || decide (id ∈ upChain sLo L (nextP sLo n)))
            = true) := by
      intro n hn hcon
      rcases hcon with ⟨hA, hC⟩
      simp only [Bool.or_eq_true, decide_eq_true_eq] at hA hC
      have endLoN : iter sLo L (nextP sLo n) = 0 := iter_next_end (hLo n hn)
      rcases hC with rfl | hB
      · rw [H2, upChain_null] at hA
        cases hA
      · have hRA : Reach sLo (nextP sLo n) p :=
          (mem_upChain_iff_reach hp endLoN).mp hA
        have hRB : Reach sLo (nextP sLo n) id :=
          (mem_upChain_iff_reach hid endLoN).mp hB
        have hpLo : iter sLo L p = 0 := by
          rcases hRA with ⟨i, hi⟩
          exact reach_end hp endLoN hi
        have hpHi : iter sHi (L + 1 + L) p = 0 :=
          surgery_ends_lo_hi H1 hw L p hpLo
        exact surgery_disjoint H1 H2 hid hp hpHi (iffW.mp hpw) hRA hRB
    rw [countP_or_disjoint hdis1]
    have hdis2 : ∀ n ∈ nodes,
        ¬(decide (n = id) = true ∧
          decide (id ∈ upChain sLo L (nextP sLo n)) = true) := by
      intro n _ hcon
      rcases hcon with ⟨hA, hB⟩
      simp only [decide_eq_true_eq] at hA hB
      subst hA
      rw [H2, upChain_null] at hB
      cases hB
    rw [countP_or_disjoint hdis2]
    have hone : nodes.countP (fun n => decide (n = id)) = 1 := by
      have hcount : nodes.countP (fun n => decide (n = id)) = nodes.count id := by
        apply List.countP_congr
        intro n _
        simp
      rw [hcount]
      exact List.count_eq_one_of_mem hnd hidm
    rw [hone]
    rfl
  · rw [if_neg hpw]
    apply List.countP_congr
    intro n hn
    simp only [decide_eq_true_eq]
    rw [key n hn]
    constructor
    · rintro (h | ⟨_, hwp⟩)
      · exact h
      · exact absurd hwp hpw
    · intro h
      exact Or.inl h

/-! ## Small wrap-arithmetic facts and fuel normalization -/

theorem wsub_small {a b : Nat} (hba : b ≤ a) (haW : a < W) :
    wsub a b = a - b := by
  unfold wsub
  have hcast : (a : Int) - (b : Int) = ((a - b : Nat) : Int) := by omega
  have hlt : ((a - b : Nat) : Int) < (W : Int) := by
    have : a - b < W := by omega
    exact_mod_cast this
  rw [hcast, Int.emod_eq_of_lt (by positivity) hlt]
  exact Int.toNat_ofNat _

theorem waddn_small {a b : Nat} (h : a + b < W) : waddn a b = a + b :=
  Nat.mod_eq_of_lt h

/-- Under the well-formedness support clauses, the parent successor lands
in the universe. -/
theorem wf_nextP_mem {s : Storage} {nodes : List K}
    (hpd : ∀ k u, s.up k = some u → u.parent ≠ 0 → s.down u.parent ≠ none)
    (hsd : ∀ k, s.down k ≠ none → k ∈ nodes) :
    ∀ m x, nextP s m = x → x ≠ 0 → x ∈ nodes := by
  intro m x hm hx
  rcases nextP_pointed hm hx with ⟨u, hu, hup⟩
  have h1 : s.down u.parent ≠ none := hpd m u hu (by rw [hup]; exact hx)
  have h2 := hsd u.parent h1
  rwa [hup] at h2

/-- Fuel normalization on the Hi side of a surgery: a walk that terminates
at all terminates within `L`, because its chain stays inside the
duplicate-free universe. -/
theorem surgery_hi_end {sLo sHi : Storage} {id w : K} {nodes : List K}
    {L : Nat}
    (H1 : ∀ x, nextP sHi x = if x = id then w else nextP sLo x)
    (hwm : w ∈ nodes) (hLlen : nodes.length ≤ L)
    (hsup : ∀ m x, nextP sLo m = x → x ≠ 0 → x ∈ nodes)
    {F : Nat} {n : K} (hnm : n ∈ nodes) (hend : iter sHi F n = 0) :
    iter sHi L n = 0 := by
  refine iter_absorb (iter_nodes_end hend ?_) hLlen
  intro x hx
  have hx0 : x ≠ 0 := by
    rintro rfl
    exact zero_not_mem_upChain sHi F n hx
  rcases mem_upChain_pointed hx with rfl | ⟨m, hm⟩
  · exact hnm
  · rw [H1] at hm
    split at hm
    · rw [← hm]
      exact hwm
    · exact hsup m x hm hx0

/-! ## What `insert_as_root` does to `Up` and `Down` records -/

theorem insertAsRootCore_spec {f : Nat} {s s' : Storage} {id : K}
    (h : insertAsRootCore f s id = .ok s') :
    s'.up = s.up ∧
    ∀ x, s'.down x = s.down x ∨
      (x = id ∧ s.down id = none ∧ s'.down x = some ⟨0, 0, 0, 0⟩) := by
  unfold insertAsRootCore at h
  dsimp only at h
  split at h
  · rename_i d hd
    rcases andThen_ok.mp h with ⟨s4, h4, h5⟩
    cases h5
    have hp := insertTree_preserves h4
    refine ⟨?_, ?_⟩
    · rw [setLayer_up, hp.1, setLayer_up, setRoot_up]
    · intro x
      refine Or.inl ?_
      rw [setLayer_down, hp.2.1, setLayer_down, setRoot_down]
  · rename_i hd
    rcases andThen_ok.mp h with ⟨s4, h4, h5⟩
    cases h5
    have hp := insertTree_preserves h4
    have hdn : s.down id = none := by
      rw [← setRoot_down s id, ← setLayer_down (setRoot s id) id ⟨some 1, id⟩]
      exact hd
    refine ⟨?_, ?_⟩
    · rw [setLayer_up, hp.1, setDown_up, setLayer_up, setRoot_up]
    · intro x
      by_cases hx : x = id
      · subst hx
        refine Or.inr ⟨rfl, hdn, ?_⟩
        rw [setLayer_down, hp.2.1, setDown_down, if_pos rfl]
      · refine Or.inl ?_
        rw [setLayer_down, hp.2.1, setDown_down, if_neg hx, setLayer_down,
          setRoot_down]

theorem insertAsRoot_spec {f : Nat} {s s' : Storage} {id : K}
    (h : insertAsRoot f s id = .ok s') :
    s'.up = s.up ∧
    ∀ x, s'.down x = s.down x ∨
      (x = id ∧ s.down id = none ∧ s'.down x = some ⟨0, 0, 0, 0⟩) := by
  unfold insertAsRoot at h
  split at h
  · split at h
    · cases h
      exact ⟨rfl, fun x => Or.inl rfl⟩
    · exact insertAsRootCore_spec h
  · exact insertAsRootCore_spec h

/-- A completed `insert_child` under the null parent went through
`insert_as_root`. -/
theorem insertChild_root_ok {dbg : Bool} {f : Nat} {s s2 : Storage}
    {id : K} {ord : Nat} (h : insertChild dbg f s id 0 ord = .ok s2) :
    insertAsRoot f s id = .ok s2 := by
  unfold insertChild at h
  split at h
  · cases h
  · rw [if_neg (by simp)] at h
    exact h

/-- A completed `insert_brother` whose brother has a stored null parent
went through `insert_as_root`. -/
theorem insertBrother_root_ok {dbg : Bool} {f : Nat} {s s2 : Storage}
    {id b : K} {ins : InsertType} {u : Up}
    (h : insertBrother dbg f s id b ins = .ok s2) (hu : s.up b = some u)
    (hq : u.parent = 0) : insertAsRoot f s id = .ok s2 := by
  unfold insertBrother at h
  rw [hu] at h
  dsimp only at h
  cases ins with
  | Front =>
    dsimp only at h
    split at h
    · cases h
    · rw [if_neg (by simp [hq])] at h
      exact h
  | Back =>
    dsimp only at h
    split at h
    · cases h
    · rw [if_neg (by simp [hq])] at h
      exact h

/-- When `id` already has a stored non-null parent, the opening match of
`insert_node` takes the reposition arm (and demands the stored parent equal
the requested one). -/
theorem insertNodeStep1_repos {s0 : Storage} {id parent : K} {ly : Layer}
    {prev next : K} {n : Up} (hup : s0.up id = some n) (hnp : n.parent ≠ 0)
    (hpq : n.parent = parent) :
    insertNodeStep1 s0 id parent ly prev next
      = some ((0, n.prev, n.next),
          setUp s0 id { n with prev := prev, next := next }) := by
  unfold insertNodeStep1
  rw [hup]
  dsimp only
  rw [if_pos hnp, if_neg (by simp [hpq])]

/-- What a completed reposition (`insert_node` on an `id` whose stored
parent is non-null) did: the stored parent must equal the requested one, no
parent link changes, and every `Down.count` survives up to a `% 2^64`
normalization (the propagated delta is zero). -/
theorem insertNode_repos_spec {f : Nat} {s0 s2 : Storage} {id q : K}
    {ly : Layer} {prev next : K} {n : Up}
    (h : insertNode f s0 id q ly prev next = .ok s2)
    (hup : s0.up id = some n) (hnp : n.parent ≠ 0) :
    n.parent = q ∧
    (∀ x, nextP s2 x = nextP s0 x) ∧
    (∃ pd2 : Down, s2.down q = some pd2 ∧
      pd2.count = waddn ((s0.down q).getD ⟨0, 0, 0, 0⟩).count 0) ∧
    (∀ x, x ≠ q → s2.down x = s0.down x ∨
      ∃ d : Down, s0.down x = some d ∧
        s2.down x = some { d with count := wadd d.count 0 }) := by
  have hpq : n.parent = q := by
    by_contra hne
    unfold insertNode insertNodeStep1 at h
    rw [hup] at h
    dsimp only at h
    rw [if_pos hnp, if_pos hne] at h
    cases h
  have hq : q ≠ 0 := hpq ▸ hnp
  refine ⟨hpq, ?_⟩
  unfold insertNode at h
  rw [insertNodeStep1_repos hup hnp hpq] at h
  dsimp only at h
  set s1 := setUp s0 id { n with prev := prev, next := next } with hs1
  have hn1 : ∀ x, nextP s1 x = nextP s0 x := nextP_setUp_preserve hup rfl
  unfold insertNodeRest at h
  rcases andThen_ok.mp h with ⟨s2a, ha, h2⟩
  clear h
  have hA := sibFixNext_spec ha
  rcases andThen_ok.mp h2 with ⟨s3, hb, h3⟩
  clear h2
  have hB := sibFixPrev_spec hb
  rcases andThen_ok.mp h3 with ⟨s4, hc, h4⟩
  clear h3
  rw [if_pos rfl] at hc
  rcases andThen_ok.mp hc with ⟨sa, hca, hc2⟩
  clear hc
  have hCA := sibFixNext_spec hca
  rcases andThen_ok.mp hc2 with ⟨sb, hcb, hc3⟩
  clear hc2
  have hCB := sibFixPrev_spec hcb
  have hs4 : s4 = sb := by
    split at hc3
    · rcases withDown_ok.mp hc3 with ⟨d, _, hc5⟩
      cases hc5
      rfl
    · cases hc3
      rfl
  subst hs4
  have hn4 : ∀ x, nextP s4 x = nextP s0 x := fun x =>
    (hCB.1 x).trans ((hCA.1 x).trans ((hB.1 x).trans ((hA.1 x).trans (hn1 x))))
  have hd4 : s4.down = s0.down :=
    hCB.2.1.trans (hCA.2.1.trans (hB.2.1.trans (hA.2.1.trans (setUp_down s0 id _))))
  dsimp only at h4
  rw [congrFun hd4 q, parentOf_eq_nextP hq] at h4
  rcases andThen_ok.mp h4 with ⟨s6, hmc, h5⟩
  clear h4
  have hmcs := modifyCount_spec f _ _ _ _ hmc
  set pdc : Down := (s0.down q).getD ⟨0, 0, 0, 0⟩ with hpdc
  set pd2 : Down :=
    { head := if prev = 0 then id else pdc.head
      tail := if next = 0 then id else pdc.tail
      len := waddn pdc.len 1
      count := waddn pdc.count 0 } with hpd2
  set s5 := setDown s4 q pd2 with hs5
  have hfin : s2 = s6 := by
    split at h5
    · rw [if_neg (by simp)] at h5
      cases h5
      rfl
    · cases h5
      rfl
  subst hfin
  have hn5 : ∀ x, nextP s5 x = nextP s0 x := fun x =>
    (nextP_setDown s4 q pd2 x).trans (hn4 x)
  have hup6 : s2.up = s5.up := hmcs.1
  have hqnot : q ∉ upChain s5 f (nextP s5 q) :=
    not_mem_upChain_self hq hmcs.2.2.2.1
  refine ⟨fun x => (nextP_eq_of_up_eq hup6 x).trans (hn5 x), ?_, ?_⟩
  · refine ⟨pd2, ?_, rfl⟩
    have h6 := hmcs.2.2.2.2.2 q
    rw [if_neg hqnot] at h6
    rw [h6, hs5, setDown_down, if_pos rfl]
  · intro x hxq
    have h6 := hmcs.2.2.2.2.2 x
    have hx5 : s5.down x = s0.down x := by
      rw [hs5, setDown_down, if_neg hxq, congrFun hd4 x]
    by_cases hmem : x ∈ upChain s5 f (nextP s5 q)
    · rw [if_pos hmem] at h6
      have hdn := hmcs.2.2.2.2.1 x hmem
      rw [hx5] at hdn h6
      rcases hd0 : s0.down x with _ | d
      · rw [hd0] at hdn
        exact absurd rfl hdn
      · rw [hd0] at h6
        exact Or.inr ⟨d, rfl, h6⟩
    · rw [if_neg hmem] at h6
      rw [h6, hx5]
      exact Or.inl rfl

theorem wadd_zero_small {a : Nat} (h : a < W) : wadd a 0 = a := by
  have h1 : wadd a ((0 : Nat) : Int) = waddn a 0 := (waddn_eq_wadd a 0).symm
  rw [Nat.cast_zero] at h1
  rw [h1, waddn_small (by omega)]
  omega

/-- Under well-formedness, the subtree size read by the engine
(`get_down(id).map_or(1, |d| d.count + 1)`) is one more than `id`'s
descendant count. -/
theorem wf_subCount {s : Storage} {nodes : List K} {L : Nat} (id : K)
    (hWF : WF s nodes L) :
    subCount s id = descCount s nodes L id + 1 := by
  unfold subCount
  rcases hdn : s.down id with _ | dn
  · rw [descCount_eq_zero_of_no_down hWF.parent_down hdn]
  · show waddn dn.count 1 = descCount s nodes L id + 1
    rw [hWF.counts id dn hdn]
    have h1 := descCount_le_length s nodes L id
    have h2 := hWF.lenW
    exact waddn_small (by omega)

/-- A completed `insert_as_root` preserves the count invariant. -/
theorem countOK_insertAsRoot {f : Nat} {s s' : Storage} {id : K}
    {nodes : List K} {L : Nat} (hWF : WF s nodes L)
    (h : insertAsRoot f s id = .ok s') : countOK s' nodes L := by
  rcases insertAsRoot_spec h with ⟨hu, hd⟩
  have hnx : ∀ x, nextP s' x = nextP s x := nextP_eq_of_up_eq hu
  intro p d hp
  rw [descCount_congr hnx]
  rcases hd p with h1 | ⟨rfl, hnone, h2⟩
  · rw [h1] at hp
    exact hWF.counts p d hp
  · rw [h2] at hp
    cases hp
    show (0 : Nat) = _
    rw [descCount_eq_zero_of_no_down hWF.parent_down hnone]

/-- A completed `remove` on an `id` with a null stored parent leaves `Up`
and `Down` untouched. -/
theorem remove_noParent_ok {f : Nat} {s s' : Storage} {id : K}
    (h : remove f s id = .ok s') (hnp : parentOf s id = 0) :
    s'.up = s.up ∧ s'.down = s.down := by
  unfold remove at h
  rcases andThen_ok.mp h with ⟨sA, hstrip, h2⟩
  have hpres := removeStrip_preserves hstrip
  unfold removePhase2 at h2
  rw [hpres.1] at h2
  unfold parentOf at hnp
  rcases hup : s.up id with _ | u
  · rw [hup] at h2
    cases h2
    exact hpres
  · rw [hup] at h2
    rw [hup] at hnp
    dsimp only at hnp h2
    rw [if_neg (by simp [hnp])] at h2
    cases h2
    exact hpres

/-- A completed `remove` preserves the count invariant. -/
theorem countOK_remove {f : Nat} {s s' : Storage} {id : K} {nodes : List K}
    {L : Nat} (hWF : WF s nodes L) (h : remove f s id = .ok s') :
    countOK s' nodes L := by
  by_cases hnp : parentOf s id = 0
  · rcases remove_noParent_ok h hnp with ⟨hu, hd⟩
    intro p d hp
    rw [congrFun hd p] at hp
    rw [descCount_congr (nextP_eq_of_up_eq hu)]
    exact hWF.counts p d hp
  · rcases hup : s.up id with _ | uid
    · exact absurd (by unfold parentOf; rw [hup]) hnp
    · have hpar : uid.parent ≠ 0 := by
        intro h0
        exact hnp (by unfold parentOf; rw [hup]; exact h0)
      have hid : id ≠ 0 := by
        rintro rfl
        exact hWF.zero_not_mem (hWF.support_up 0 (by rw [hup]; simp))
      have hidm : id ∈ nodes := hWF.support_up id (by rw [hup]; simp)
      rcases remove_spec h hup hpar hid with
        ⟨hnext, hupid', hendP, dP, hdP, hPdown, hchain, helse⟩
      have H1 : ∀ x, nextP s x = if x = id then uid.parent else nextP s' x := by
        intro x
        by_cases hx : x = id
        · subst hx
          rw [if_pos rfl]
          exact nextP_some hid hup
        · rw [if_neg hx, hnext x, if_neg hx]
      have H2 : nextP s' id = 0 := by rw [hnext id, if_pos rfl]
      have hPm : uid.parent ∈ nodes := by
        apply hWF.support_down
        rw [hdP]
        simp
      have hLoEnd : ∀ n ∈ nodes, iter s' L n = 0 := fun n hn =>
        surgery_ends_hi_lo H1 H2 L n (hWF.chains_end n hn)
      have hwEnd : iter s L uid.parent = 0 := hWF.chains_end uid.parent hPm
      have hform := fun (p : K) (hp : p ≠ 0) =>
        surgery_descCount H1 H2 hid hidm hWF.nodup hLoEnd hWF.chains_end
          hwEnd hp
      have hendf : iter s f (nextP s uid.parent) = 0 := by
        have h1 := hendP
        rwa [iter_succ] at h1
      have hidNot : id ∉ upChain s L uid.parent := by
        have hPn : nextP s id = uid.parent := nextP_some hid hup
        have h1 : id ∉ upChain s L (nextP s id) :=
          not_mem_upChain_self hid (by rw [hPn]; exact hwEnd)
        rwa [hPn] at h1
      have hidEq : descCount s nodes L id = descCount s' nodes L id := by
        have h1 := hform id hid
        rwa [if_neg hidNot] at h1
      have hsub : subCount s id = descCount s nodes L id + 1 :=
        wf_subCount id hWF
      intro p d hpd
      by_cases hpP : p = uid.parent
      · rw [hpP] at hpd ⊢
        rw [hPdown] at hpd
        cases hpd
        have hdPc : dP.count = descCount s nodes L uid.parent :=
          hWF.counts uid.parent dP hdP
        have hPmem : uid.parent ∈ upChain s L uid.parent :=
          (mem_upChain_iff_reach hpar hwEnd).mpr ⟨0, rfl⟩
        have hf := hform uid.parent hpar
        rw [if_pos hPmem] at hf
        show wsub dP.count (subCount s id) = descCount s' nodes L uid.parent
        have hlen := descCount_le_length s nodes L uid.parent
        have hW := hWF.lenW
        rw [hdPc, hsub, wsub_small (by omega) (by omega)]
        omega
      · by_cases hpc : p ∈ upChain s f (nextP s uid.parent)
        · rcases hchain p hpc with ⟨hpP', hdnp, hmap⟩
          rcases hdp0 : s.down p with _ | dp
          · rw [hdp0] at hdnp
            exact absurd rfl hdnp
          · rw [hmap, hdp0] at hpd
            cases hpd
            have hp0 : p ≠ 0 := by
              rintro rfl
              exact zero_not_mem_upChain _ _ _ hpc
            have hpmem : p ∈ upChain s L uid.parent := by
              rcases (mem_upChain_iff_reach hp0 hendf).mp hpc with ⟨i, hi⟩
              exact (mem_upChain_iff_reach hp0 hwEnd).mpr
                ⟨i + 1, by rw [iter_succ]; exact hi⟩
            have hf := hform p hp0
            rw [if_pos hpmem] at hf
            have hdpc : dp.count = descCount s nodes L p :=
              hWF.counts p dp hdp0
            show wadd dp.count (-(subCount s id : Int)) = descCount s' nodes L p
            have hlen := descCount_le_length s nodes L p
            have hW := hWF.lenW
            rw [← wsub_eq_wadd_neg, hdpc, hsub,
              wsub_small (by omega) (by omega)]
            omega
        · have hpe := helse p hpP hpc
          rw [hpe] at hpd
          have hp0 : p ≠ 0 := by
            rintro rfl
            exact hWF.zero_not_mem (hWF.support_down 0 (by rw [hpd]; simp))
          have hnot : p ∉ upChain s L uid.parent := by
            intro hmem
            rcases (mem_upChain_iff_reach hp0 hwEnd).mp hmem with ⟨i, hi⟩
            cases i with
            | zero => exact hpP hi.symm
            | succ i =>
              rw [iter_succ] at hi
              exact hpc ((mem_upChain_iff_reach hp0 hendf).mpr ⟨i, hi⟩)
          have hf := hform p hp0
          rw [if_neg hnot] at hf
          rw [← hf]
          exact hWF.counts p d hpd

/-- A completed fresh attach through `insert_node` preserves the count
invariant. -/
theorem countOK_insertNode_fresh {f : Nat} {s s2 : Storage} {id q : K}
    {ly : Layer} {prev next : K} {nodes : List K} {L : Nat}
    (hWF : WF s nodes L) (hidm : id ∈ nodes) (hqm : q ∈ nodes)
    (hfresh : parentOf s id = 0)
    (h : insertNode f s id q ly prev next = .ok s2) :
    countOK s2 nodes L := by
  have hid : id ≠ 0 := fun h0 => hWF.zero_not_mem (h0 ▸ hidm)
  have hq : q ≠ 0 := fun h0 => hWF.zero_not_mem (h0 ▸ hqm)
  have hsub : subCount s id = descCount s nodes L id + 1 := wf_subCount id hWF
  have hsc : subCount s id ≠ 0 := by
    rw [hsub]
    omega
  rcases insertNode_fresh_spec h hfresh hq hid hsc with
    ⟨hqid, hend, hnx, hdq2, hchain, helse⟩
  have H1 : ∀ x, nextP (setUp s id ⟨q, prev, next⟩) x
      = if x = id then q else nextP s x := nextP_setUp hid
  have H2 : nextP s id = 0 := by
    unfold parentOf at hfresh
    unfold nextP
    rw [if_neg hid]
    rcases hu : s.up id with _ | u
    · rfl
    · rw [hu] at hfresh
      dsimp only at hfresh
      exact hfresh
  have hsup := wf_nextP_mem hWF.parent_down hWF.support_down
  have hLlen : nodes.length ≤ L := by
    have := hWF.lenL
    omega
  have hqEnd : iter (setUp s id ⟨q, prev, next⟩) L q = 0 :=
    surgery_hi_end H1 hqm hLlen hsup hqm hend
  have hHiEnd : ∀ n ∈ nodes, iter (setUp s id ⟨q, prev, next⟩) L n = 0 := by
    intro n hn
    have h1 := surgery_ends_lo_hi H1 hqEnd L n (hWF.chains_end n hn)
    exact surgery_hi_end H1 hqm hLlen hsup hn h1
  have hform := fun (p : K) (hp : p ≠ 0) =>
    surgery_descCount H1 H2 hid hidm hWF.nodup hWF.chains_end hHiEnd hqEnd hp
  have hendf : iter (setUp s id ⟨q, prev, next⟩) f
      (nextP (setUp s id ⟨q, prev, next⟩) q) = 0 := by
    have h1 := hend
    rwa [iter_succ] at h1
  intro p d hpd
  rw [descCount_congr hnx]
  by_cases hpq : p = q
  · rw [hpq] at hpd ⊢
    rw [hdq2] at hpd
    cases hpd
    show waddn ((s.down q).getD ⟨0, 0, 0, 0⟩).count (subCount s id)
      = descCount (setUp s id ⟨q, prev, next⟩) nodes L q
    have hpmem : q ∈ upChain (setUp s id ⟨q, prev, next⟩) L q :=
      (mem_upChain_iff_reach hq hqEnd).mpr ⟨0, rfl⟩
    have hf := hform q hq
    rw [if_pos hpmem] at hf
    have hgetD : ((s.down q).getD ⟨0, 0, 0, 0⟩).count
        = descCount s nodes L q := by
      rcases hdq : s.down q with _ | dq
      · exact (descCount_eq_zero_of_no_down hWF.parent_down hdq).symm
      · exact hWF.counts q dq hdq
    have hlen := descCount_le_length (setUp s id ⟨q, prev, next⟩) nodes L q
    rw [hf] at hlen
    have hW := hWF.lenW
    rw [hgetD, hsub, hf, waddn_small (by omega)]
    omega
  · by_cases hmem : p ∈ upChain (setUp s id ⟨q, prev, next⟩) f
        (nextP (setUp s id ⟨q, prev, next⟩) q)
    · rcases hchain p hmem with ⟨hpq', hdnp, hmap⟩
      rcases hdp : s.down p with _ | dp
      · rw [hdp] at hdnp
        exact absurd rfl hdnp
      · rw [hmap, hdp] at hpd
        cases hpd
        have hp0 : p ≠ 0 := by
          rintro rfl
          exact zero_not_mem_upChain _ _ _ hmem
        have hpmem : p ∈ upChain (setUp s id ⟨q, prev, next⟩) L q := by
          rcases (mem_upChain_iff_reach hp0 hendf).mp hmem with ⟨i, hi⟩
          exact (mem_upChain_iff_reach hp0 hqEnd).mpr
            ⟨i + 1, by rw [iter_succ]; exact hi⟩
        have hf := hform p hp0
        rw [if_pos hpmem] at hf
        have hdpc : dp.count = descCount s nodes L p := hWF.counts p dp hdp
        show wadd dp.count ((subCount s id : Nat) : Int)
          = descCount (setUp s id ⟨q, prev, next⟩) nodes L p
        have hlen := descCount_le_length (setUp s id ⟨q, prev, next⟩) nodes L p
        rw [hf] at hlen
        have hW := hWF.lenW
        rw [← waddn_eq_wadd, hdpc, hsub, hf, waddn_small (by omega)]
        omega
    · have hpe := helse p hpq hmem
      rw [hpe] at hpd
      have hp0 : p ≠ 0 := by
        rintro rfl
        exact hWF.zero_not_mem (hWF.support_down 0 (by rw [hpd]; simp))
      have hnot : p ∉ upChain (setUp s id ⟨q, prev, next⟩) L q := by
        intro hm2
        rcases (mem_upChain_iff_reach hp0 hqEnd).mp hm2 with ⟨i, hi⟩
        cases i with
        | zero => exact hpq hi.symm
        | succ i =>
          rw [iter_succ] at hi
          exact hmem ((mem_upChain_iff_reach hp0 hendf).mpr ⟨i, hi⟩)
      have hf := hform p hp0
      rw [if_neg hnot] at hf
      rw [hf]
      exact hWF.counts p d hpd

/-- A completed `insert_node` (fresh attach or reposition) preserves the
count invariant. -/
theorem countOK_insertNode {f : Nat} {s s2 : Storage} {id q : K}
    {ly : Layer} {prev next : K} {nodes : List K} {L : Nat}
    (hWF : WF s nodes L) (hidm : id ∈ nodes) (hqm : q ∈ nodes)
    (h : insertNode f s id q ly prev next = .ok s2) :
    countOK s2 nodes L := by
  rcases hup : s.up id with _ | n
  · exact countOK_insertNode_fresh hWF hidm hqm (by unfold parentOf; rw [hup]) h
  · by_cases hnp : n.parent = 0
    · exact countOK_insertNode_fresh hWF hidm hqm
        (by unfold parentOf; rw [hup]; exact hnp) h
    · rcases insertNode_repos_spec h hup hnp with
        ⟨hpq, hnx, ⟨pd2, hpd2, hpc⟩, hother⟩
      intro p d hpd
      rw [descCount_congr hnx]
      have hW := hWF.lenW
      by_cases hpqq : p = q
      · rw [hpqq] at hpd ⊢
        rw [hpd2] at hpd
        cases hpd
        rw [hpc]
        rcases hdq : s.down q with _ | dq
        · exfalso
          exact hWF.parent_down id n hup hnp (by rw [hpq]; exact hdq)
        · have hdqc : dq.count = descCount s nodes L q := hWF.counts q dq hdq
          have hlen := descCount_le_length s nodes L q
          show waddn dq.count 0 = descCount s nodes L q
          rw [hdqc, waddn_small (by omega)]
          omega
      · rcases hother p hpqq with h1 | ⟨dp, hdp, h2⟩
        · rw [h1] at hpd
          exact hWF.counts p d hpd
        · rw [h2] at hpd
          cases hpd
          show wadd dp.count 0 = descCount s nodes L p
          have hdpc : dp.count = descCount s nodes L p := hWF.counts p dp hdp
          have hlen := descCount_le_length s nodes L p
          rw [wadd_zero_small (by omega), hdpc]

/-! ## Claim C1 (`code_bug`): `remove` is meant to strip the `Layer` of the
whole subtree, but `remove_tree` stops walking a sibling chain at the first
node without a `Down` record, leaving later siblings' layers in place. -/

set_option maxHeartbeats 1000000 in
/-- Claim C1: in `s1234` (root `1` → child `2` → children `3`, `4`), node
`2` is attached with parent `1` and node `4` lies in `2`'s subtree; yet
after `remove(2)` completes, `4` still carries `Layer {3, 1}` (while the
layers of `2` and `3` were removed), contradicting the claim that no node
of the subtree keeps a `Layer` record.  (`remove_tree` hit leaf `3`, which
has no `Down`, and stopped before visiting `4`.) -/
theorem c1_remove_leaves_descendant_layer :
    s1234.layer 2 = some ⟨some 2, 1⟩ ∧ (s1234.up 2).map Up.parent = some 1 ∧
    (s1234.up 4).map Up.parent = some 2 ∧
    ((okStore (remove 30 s1234 2)).map fun s => (s.layer 2, s.layer 3, s.layer 4))
      = some (none, none, some ⟨some 3, 1⟩) := by
  decide

/-! ## Claim C2 (`code_bug`): in the reposition case `insert_node` computes
the vacated-edge head/tail fix-up into a local clone of the parent's `Down`
and never writes it back (and bumps `len`), so the parent's `head` is left
stale. -/

set_option maxHeartbeats 1000000 in
/-- Claim C2: in `s123` (root `1`, children `2`, `3`; `2` is the head and is
followed by `3`), repositioning the head child via `insert_child(2, 1, 2)`
completes with `Down(1) = {head 2, tail 2, len 3, count 2}`: the count is
unchanged as claimed, but `head` is still `2` instead of the claimed `3`
(the child that followed `2` before the move) — and `len` was wrongly
incremented. -/
theorem c2_reposition_head_not_fixed :
    s123.down 1 = some ⟨2, 3, 2, 2⟩ ∧ (s123.up 2).map Up.next = some 3 ∧
    ((okStore (insertChild true 30 s123 2 1 2)).map fun s => s.down 1)
      = some (some ⟨2, 2, 3, 2⟩) := by
  decide

/-! ## Claim C3 (`code_bug`): re-inserting a child at its own current
ordinal is meant to be a no-op but corrupts the sibling links and `len`
(the guard `if id == prev || id == next {return}` is commented out in the
source). -/

set_option maxHeartbeats 1000000 in
/-- Claim C3: in `s123`, node `2` is child number `0` of parent `1`; after
`insert_child(2, 1, 0)` completes, `Down(1).len` has grown from `2` to `3`,
`Up(2)` has become the self-referential `{parent 1, prev 2, next 2}`, and
`Up(3)` lost its `prev` link — contradicting the claim that all `Up`
records of `1`'s children and `Down(1)` are left unchanged. -/
theorem c3_reposition_same_ordinal_mutates :
    s123.down 1 = some ⟨2, 3, 2, 2⟩ ∧ s123.up 2 = some ⟨1, 0, 3⟩ ∧
    s123.up 3 = some ⟨1, 2, 0⟩ ∧
    ((okStore (insertChild true 30 s123 2 1 0)).map fun s => (s.down 1, s.up 2, s.up 3))
      = some (some ⟨2, 3, 3, 2⟩, some ⟨1, 2, 2⟩, some ⟨1, 0, 0⟩) := by
  decide

/-! ## Claim C4 (`corrected`): `remove(id)` on a parentless `id` is *not* a
complete no-op — the layer-stripping phase runs before the parent check. -/

set_option maxHeartbeats 1000000 in
/-- Claim C4, counterexample: in `s12` the root `1` has no parent (no `Up`
record) and is attached at depth 1; yet `remove(1)` completes and has
removed child `2`'s `Layer` record and deregistered `1` as a root —
contradicting "remove(id) changes nothing ... including the case where id
is an attached depth-1 root". -/
theorem c4_counterexample_root_remove_mutates :
    noParentB s12 1 = true ∧ s12.layer 2 = some ⟨some 2, 1⟩ ∧ s12.roots 1 = true ∧
    ((okStore (remove 30 s12 1)).map fun s => (s.layer 2, s.roots 1)) = some (none, false) := by
  decide

/-- Claim C4 as amended: for every handle `id` with no parent (no `Up`
record, or a null stored parent), a completed `remove(id)` never adds,
removes or modifies any `Up` or `Down` record; and if `id` is moreover not
attached (no `Layer`, or a null stored depth), `remove(id)` changes nothing
at all.  (An attached parentless `id` still has the `Layer` records of its
reachable descendants stripped and, at depth 1, is deregistered as a root.) -/
theorem c4_amended_no_parent_up_down_preserved (f : Nat) (s : Storage) (id : K)
    (h : noParentB s id = true) :
    (∀ s', remove f s id = .ok s' → s'.up = s.up ∧ s'.down = s.down) ∧
    (unattachedB s id = true → remove f s id = .ok s) := by
  have hphase2 : ∀ s1 : Storage, s1.up = s.up → removePhase2 f s1 id = .ok s1 := by
    intro s1 hup
    unfold noParentB at h
    unfold removePhase2
    rw [hup]
    revert h
    cases hu : s.up id with
    | none => intro _; rfl
    | some u =>
      intro h
      dsimp only at h ⊢
      simp only [beq_iff_eq] at h
      simp [h]
  constructor
  · intro s' h'
    unfold remove at h'
    rcases andThen_ok.mp h' with ⟨s1, h1, h2⟩
    have e1 := removeStrip_preserves h1
    rw [hphase2 s1 e1.1] at h2
    cases h2
    exact e1
  · intro hun
    have h1 : removeStrip f s id = .ok s := by
      unfold removeStrip
      unfold unattachedB at hun
      revert hun
      cases hl : s.layer id with
      | none => intro _; rfl
      | some l =>
        intro hun
        dsimp only at hun ⊢
        simp only [beq_iff_eq] at hun
        simp [hun]
    unfold remove
    rw [h1]
    simp only [andThen]
    exact hphase2 s rfl

/-- Witness for the amended claim C4 at a concrete input: handle `1` in the
empty storage has no parent and no layer, and `remove(1)` returns the
storage unchanged. -/
theorem c4_amended_witness :
    noParentB emptyS 1 = true ∧ unattachedB emptyS 1 = true ∧
    remove 30 emptyS 1 = .ok emptyS :=
  ⟨by decide, by decide,
    (c4_amended_no_parent_up_down_preserved 30 emptyS 1 (by decide)).2 (by decide)⟩

/-! ## Claim C5 (`corrected`): the stored aggregate `count` equals the
number of proper descendants, *without* the claimed extra `1` for the node
itself. -/

set_option maxHeartbeats 1000000 in
/-- Claim C5, counterexample: `s12` is reached from empty storage by the
two completed operations `insert_child(1, null, MAX); insert_child(2, 1,
MAX)`, and its universe of live handles is `[1, 2]`; the claimed invariant
"`Down(p).count = 1 +` number of proper descendants of `p`" is false there
(`Down(1).count = 1` with one proper descendant), while the off-by-nothing
variant `Down(p).count =` number of proper descendants holds. -/
theorem c5_counterexample_count_off_by_one :
    countInv s12 [1, 2] 3 1 = false ∧ countInv s12 [1, 2] 3 0 = true := by
  decide

set_option maxHeartbeats 1000000 in
/-- Claim C5 (amended): after every completed public operation
(`insert_child`, `insert_brother` or `remove`) on a storage that is
well-formed over a finite universe of live handles, every materialized
`Down(p).count` equals the number of proper descendants of `p` — with no
extra `1` for the node itself (the counterexample above refutes the
claimed `1 +`). -/
theorem c5_amended_descendant_count {dbg : Bool} {f : Nat} {s s' : Storage}
    {nodes : List K} {L : Nat} {op : Op}
    (hWF : WF s nodes L) (hval : opValid op nodes)
    (h : runOp dbg f s op = .ok s') :
    countOK s' nodes L := by
  cases op with
  | child id parent order =>
    have hval2 : id ∈ nodes ∧ (parent = 0 ∨ parent ∈ nodes) := hval
    rcases hval2 with ⟨hidm, hpar⟩
    rcases hpar with rfl | hqm
    · exact countOK_insertAsRoot hWF (insertChild_root_ok h)
    · have hq0 : parent ≠ 0 := fun h0 => hWF.zero_not_mem (h0 ▸ hqm)
      rcases insertChild_ok_insertNode h hq0 with ⟨ly, prev, next, hin⟩
      exact countOK_insertNode hWF hidm hqm hin
  | brother id b ins =>
    have hidm : id ∈ nodes := hval
    rcases hub : s.up b with _ | u
    · exfalso
      have h2 : insertBrother dbg f s id b ins = .ok s' := h
      unfold insertBrother at h2
      rw [hub] at h2
      cases h2
    · by_cases hq0 : u.parent = 0
      · exact countOK_insertAsRoot hWF (insertBrother_root_ok h hub hq0)
      · rcases insertBrother_ok_insertNode h hub hq0 with ⟨ly, prev, next, hin⟩
        have hqm : u.parent ∈ nodes :=
          hWF.support_down u.parent (hWF.parent_down b u hub hq0)
        exact countOK_insertNode hWF hidm hqm hin
  | rem id => exact countOK_remove hWF h

set_option maxHeartbeats 1000000 in
/-- The amended C5 theorem applied at a concrete input: `s12` (root `1`
with single child `2`) is well-formed over the universe `[1, 2]`, and the
completed public operation `remove(2)` preserves the descendant-count
invariant. -/
theorem c5_amended_descendant_count_witness :
    WF s12 [1, 2] 8 ∧ countOK c5s [1, 2] 8 := by
  have hWF : WF s12 [1, 2] 8 := by
    refine ⟨?_, ?_, ?_, ?_, ?_, ?_, ?_, ?_, ?_⟩
    · decide
    · decide
    · decide
    · decide
    · intro k hk
      by_cases h2 : k = 2
      · subst h2
        decide
      · exfalso
        apply hk
        show (if k = 2 then some (⟨1, 0, 0⟩ : Up) else none) = none
        rw [if_neg h2]
    · intro k hk
      by_cases h1 : k = 1
      · subst h1
        decide
      · exfalso
        apply hk
        show (if k = 1 then some (⟨2, 2, 1, 1⟩ : Down) else none) = none
        rw [if_neg h1]
    · intro k u hu hp
      by_cases h2 : k = 2
      · subst h2
        rw [show s12.up 2 = some ⟨1, 0, 0⟩ from rfl] at hu
        cases hu
        decide
      · exfalso
        rw [show s12.up k = (if k = 2 then some ⟨1, 0, 0⟩ else none)
          from rfl, if_neg h2] at hu
        cases hu
    · intro n hn
      have h2 : n = 1 ∨ n = 2 := by simpa using hn
      rcases h2 with rfl | rfl
      · decide
      · decide
    · intro p d hp
      by_cases h1 : p = 1
      · subst h1
        rw [show s12.down 1 = some ⟨2, 2, 1, 1⟩ from rfl] at hp
        cases hp
        decide
      · exfalso
        rw [show s12.down p = (if p = 1 then some ⟨2, 2, 1, 1⟩ else none)
          from rfl, if_neg h1] at hp
        cases hp
  exact ⟨hWF, @c5_amended_descendant_count true 10 s12 c5s [1, 2] 8
    (.rem 2) hWF True.intro rfl⟩

/-! ## Claim C6 (`code_bug`): the depth/root invariant is broken by the
same `remove_tree` early-stop as C1. -/

set_option maxHeartbeats 1000000 in
/-- Claim C6: after the completed public operation `remove(2)` on `s1234`,
node `4` still carries `Layer {depth 3, root 1}` and `Up(4).parent = 2`,
but its parent `2` carries no `Layer` at all — so the claimed invariant
"`Layer(parent).depth + 1 = Layer(n).depth` for every attached `n` with a
non-null parent" fails after a completed public operation. -/
theorem c6_depth_invariant_broken_after_remove :
    ((okStore (remove 30 s1234 2)).map fun s => ((s.up 4).map Up.parent, s.layer 4, s.layer 2))
      = some (some 2, some ⟨some 3, 1⟩, none) := by
  decide

/-! ## Claim C9 (`corrected`): the `id == parent` check is compiled only
under `cfg!(debug_assertions)`; in release builds the operation neither
panics nor leaves the storage unchanged (it mutates and then spins in
`modify_count`). -/

set_option maxHeartbeats 1000000 in
/-- Claim C9, counterexample: with debug assertions off (release build),
`insert_child(1, 1, 0)` on the empty storage does not abort with a
diagnostic: it runs out of fuel inside `modify_count` (the parent walk
cycles on `1`), and by that time it has already written `Up(1) = {parent 1,
prev 0, next 0}` — a storage mutation.  This falsifies "panics and performs
no mutation in every build configuration". -/
theorem c9_counterexample_release_no_panic :
    errKind (insertChild false 6 emptyS 1 1 0) = some .fuel ∧
    ((errStore (insertChild false 6 emptyS 1 1 0)).map fun s => s.up 1)
      = some (some ⟨1, 0, 0⟩) := by
  decide

/-- Claim C9 as amended: with debug assertions enabled, `insert_child(id,
id, order)` aborts irrecoverably with a diagnostic before any mutation (the
error carries the unchanged storage); likewise `insert_brother` when the
parent derived from `brother` equals `id`.  Without debug assertions the
check is elided. -/
theorem c9_amended_debug_panics (f : Nat) (s : Storage) (id b : K) (order : Nat)
    (ins : InsertType) :
    insertChild true f s id id order = .error (.fatal, s) ∧
    (∀ u, s.up b = some u → u.parent = id →
      insertBrother true f s id b ins = .error (.fatal, s)) := by
  constructor
  · simp [insertChild]
  · intro u hu hp
    cases ins <;> simp [insertBrother, hu, hp]

/-- Witness for the amended claim C9 at concrete inputs: in `s12`, both the
self-parent `insert_child(1, 1, 0)` and `insert_brother(1, 2, Back)` (whose
brother `2` has stored parent `1`) abort fatally with the storage
unchanged. -/
theorem c9_amended_witness :
    insertChild true 30 s12 1 1 0 = .error (.fatal, s12) ∧
    insertBrother true 30 s12 1 2 .Back = .error (.fatal, s12) :=
  ⟨(c9_amended_debug_panics 30 s12 1 2 0 .Back).1,
   (c9_amended_debug_panics 30 s12 1 2 0 .Back).2 ⟨1, 0, 0⟩ (by decide) rfl⟩

/-! ## Claim C10 (`confirmed`): the children iterator treats a missing `Up`
record as end-of-chain. -/

/-- Claim C10: for every non-null starting handle `h` with no `Up` record,
the direct-children iterator yields `h` exactly once and then terminates:
its first step yields `h` with new head null, the step on a null head
yields nothing, and the collected sequence is `[h]` for any fuel. -/
theorem c10_children_iterator_no_up (s : Storage) (h : K) (f : Nat)
    (h1 : h ≠ 0) (h2 : s.up h = none) :
    childList s (f + 2) h = [h] ∧ childStep s h = some (h, 0) ∧
    childStep s 0 = none := by
  have hs : childStep s h = some (h, 0) := by simp [childStep, h1, h2]
  refine ⟨?_, hs, by simp [childStep]⟩
  show childList s (f + 1 + 1) h = [h]
  unfold childList
  rw [hs]
  unfold childList
  simp [childStep]

/-! ## Claim C8 (`confirmed`): the bidirectional ordinal search -/

theorem fwdLinkedB_head {s : Storage} {h : K} {cs : List K}
    (hf : fwdLinkedB s h cs = true) : h = cs.getD 0 0 := by
  cases cs with
  | nil => simpa [fwdLinkedB] using hf
  | cons c t =>
    unfold fwdLinkedB at hf
    simp only [Bool.and_eq_true, beq_iff_eq] at hf
    simpa [List.getD] using hf.1.1

theorem backLinkedB_head {s : Storage} {t : K} {rs : List K}
    (hb : backLinkedB s t rs = true) : t = rs.getD 0 0 := by
  cases rs with
  | nil => simpa [backLinkedB] using hb
  | cons c r =>
    unfold backLinkedB at hb
    simp only [Bool.and_eq_true, beq_iff_eq] at hb
    simpa [List.getD] using hb.1.1

/-- Characterization of the forward walk: starting at the head of the
linked list `cs` with accumulator `prev0`, `order < cs.length` steps land
on `(cs[order-1] (or prev0 at 0), cs[order])`. -/
theorem fwdSearch_char {s : Storage} :
    ∀ (order : Nat) (cs : List K) (h prev0 : K),
      fwdLinkedB s h cs = true → order < cs.length →
      fwdSearch s order prev0 h =
        .ok (if order = 0 then prev0 else cs.getD (order - 1) 0, cs.getD order 0) := by
  intro order
  induction order with
  | zero =>
    intro cs h prev0 hf hlt
    cases cs with
    | nil => simp at hlt
    | cons c t =>
      unfold fwdLinkedB at hf
      simp only [Bool.and_eq_true, beq_iff_eq] at hf
      simp [fwdSearch, hf.1.1, List.getD]
  | succ order ih =>
    intro cs h prev0 hf hlt
    cases cs with
    | nil => simp at hlt
    | cons c t =>
      unfold fwdLinkedB at hf
      simp only [Bool.and_eq_true, beq_iff_eq, bne_iff_ne] at hf
      obtain ⟨⟨hc, hc0⟩, hm⟩ := hf
      revert hm
      cases hu : s.up c with
      | none => intro hm; cases hm
      | some u =>
        intro hm
        unfold fwdSearch
        rw [hc, if_neg hc0, hu]
        dsimp only
        have hlt' : order < t.length := by simpa using hlt
        rw [ih t u.next c hm hlt']
        cases order with
        | zero => simp [List.getD]
        | succ o => simp [List.getD]

/-- Characterization of the backward walk: starting at the tail of the
(backward-read) linked list `rs`, `m ≤ rs.length` steps land on
`(rs[m] (or 0 past the end), rs[m-1] (or next0 at 0))`. -/
theorem backSearch_char {s : Storage} :
    ∀ (m : Nat) (rs : List K) (t next0 : K),
      backLinkedB s t rs = true → m ≤ rs.length →
      backSearch s m t next0 =
        .ok (rs.getD m 0, if m = 0 then next0 else rs.getD (m - 1) 0) := by
  intro m
  induction m with
  | zero =>
    intro rs t next0 hb _
    rw [backLinkedB_head hb]
    rfl
  | succ m ih =>
    intro rs t next0 hb hle
    cases rs with
    | nil => simp at hle
    | cons c r =>
      unfold backLinkedB at hb
      simp only [Bool.and_eq_true, beq_iff_eq, bne_iff_ne] at hb
      obtain ⟨⟨hc, hc0⟩, hm⟩ := hb
      revert hm
      cases hu : s.up c with
      | none => intro hm; cases hm
      | some u =>
        intro hm
        unfold backSearch
        rw [hc, if_neg hc0, hu]
        dsimp only
        have hle' : m ≤ r.length := by simpa using hle
        rw [ih r u.prev c hm hle']
        cases m with
        | zero =>
          have := backLinkedB_head hm
          simp [List.getD, ← this]
        | succ o => simp [List.getD]

/-- Claim C8: for `insert_child(id, parent, order)` on a non-null `parent`
whose child list is the doubly-linked `cs` (`Down(parent).head/tail/len`
consistent with `cs`): when `order ≥ len`, the computed splice slot is
`(tail, null)` (append); when `order < len`, the forward-from-head walk,
the backward-from-tail walk, and the slot actually computed by
`insert_child` (whichever branch it takes) all equal
`(cs[order-1] — null when order = 0 —, cs[order])`. -/
theorem c8_splice_position (s : Storage) (pd : Down) (cs : List K) (order : Nat)
    (hF : fwdLinkedB s pd.head cs = true)
    (hB : backLinkedB s pd.tail cs.reverse = true)
    (hlen : pd.len = cs.length) :
    (order ≥ pd.len → splicePos s pd order = .ok (pd.tail, 0)) ∧
    (order < pd.len →
      fwdSearch s order 0 pd.head
          = .ok (specSplicePrev cs order, specSpliceNext cs order) ∧
        backSearch s (pd.len - order) pd.tail 0
          = .ok (specSplicePrev cs order, specSpliceNext cs order) ∧
        splicePos s pd order
          = .ok (specSplicePrev cs order, specSpliceNext cs order)) := by
  constructor
  · intro hge
    unfold splicePos
    rw [if_pos hge]
  · intro hlt
    have hlt' : order < cs.length := hlen ▸ hlt
    have hfwd := fwdSearch_char order cs pd.head 0 hF hlt'
    have hrev : (cs.reverse : List K).length = cs.length := by simp
    have hle : pd.len - order ≤ cs.reverse.length := by
      rw [hrev, ← hlen]
      exact Nat.sub_le _ _
    have hback := backSearch_char (pd.len - order) cs.reverse pd.tail 0 hB hle
    have hm0 : pd.len - order ≠ 0 := Nat.sub_ne_zero_of_lt hlt
    rw [if_neg hm0] at hback
    have hgetm : cs.reverse.getD (pd.len - order) 0 = specSplicePrev cs order := by
      unfold specSplicePrev
      rcases Nat.eq_zero_or_pos order with ho | ho
      · subst ho
        rw [if_pos rfl, Nat.sub_zero, hlen]
        exact List.getD_eq_default _ _ (by simp)
      · rw [if_neg (Nat.pos_iff_ne_zero.mp ho)]
        have hidx : pd.len - order < cs.length := by
          rw [hlen]
          exact Nat.sub_lt_self ho (Nat.le_of_lt hlt')
        rw [List.getD_eq_getElem _ _ (by simpa using hidx),
            List.getD_eq_getElem _ _ (by omega), List.getElem_reverse]
        congr 1
        omega
    have hgetm1 : cs.reverse.getD (pd.len - order - 1) 0 = specSpliceNext cs order := by
      unfold specSpliceNext
      have hidx : pd.len - order - 1 < cs.length := by omega
      rw [List.getD_eq_getElem _ _ (by simpa using hidx),
          List.getD_eq_getElem _ _ (by omega), List.getElem_reverse]
      congr 1
      omega
    rw [hgetm, hgetm1] at hback
    have hfwd' : fwdSearch s order 0 pd.head
        = .ok (specSplicePrev cs order, specSpliceNext cs order) := by
      rw [hfwd]
      unfold specSplicePrev specSpliceNext
      split <;> rfl
    refine ⟨hfwd', hback, ?_⟩
    unfold splicePos
    rw [if_neg (by omega)]
    split
    · exact hback
    · exact hfwd'

/-- Witness for claim C8 at a concrete input: in `s123`, parent `1` has the
doubly-linked child list `[2, 3]`; at `order = 1` both walks and
`insert_child`'s own computation give `(prev, next) = (2, 3)`, and at
`order = 5 ≥ len` the slot is `(tail, null) = (3, 0)`. -/
theorem c8_splice_position_witness :
    fwdLinkedB s123 ((s123.down 1).map Down.head |>.getD 0) [2, 3] = true ∧
    splicePos s123 ⟨2, 3, 2, 2⟩ 1 = .ok (specSplicePrev [2, 3] 1, specSpliceNext [2, 3] 1) ∧
    splicePos s123 ⟨2, 3, 2, 2⟩ 5 = .ok (3, 0) :=
  ⟨by decide,
   ((c8_splice_position s123 ⟨2, 3, 2, 2⟩ [2, 3] 1 (by decide) (by decide) (by decide)).2
      (by decide)).2.2,
   (c8_splice_position s123 ⟨2, 3, 2, 2⟩ [2, 3] 5 (by decide) (by decide) (by decide)).1
      (by decide)⟩

/-- Witness for claim C10 at a concrete input: handle `1` in the empty
storage. -/
theorem c10_children_iterator_no_up_witness :
    (1 : K) ≠ 0 ∧ emptyS.up 1 = none ∧
    (childList emptyS 2 1 = [1] ∧ childStep emptyS 1 = some (1, 0) ∧
      childStep emptyS 0 = none) :=
  ⟨by decide, rfl, c10_children_iterator_no_up emptyS 1 0 (by decide) rfl⟩

end PiTree
